import Mathlib

/-!
Verification of the timebox repository's core logic against its specification.

The development shallowly embeds the Rust source (src/api/types.rs,
src/api/time.rs, src/ui/views.rs) into Lean:

* strings are modelled as `List Char` (Rust `&str` / `String`);
* the dynamically typed SDF/ADF tree (`serde_json::Value`) is modelled by the
  inductive `Json`, with JSON numbers restricted to integers (the only numeric
  attributes the code reads or writes are integral heading levels);
* Rust `f32` values are modelled as exact rationals rounded to 24 significant
  bits with round-to-nearest, ties-to-even (`roundF32`), which is the IEEE-754
  binary32 rounding the Rust parser and arithmetic perform on the magnitudes
  reachable here; `as i64` casts are modelled by truncation toward zero with
  saturation (`f32ToI64`), and `i64` addition wraps (`wrap64`), matching
  release-mode semantics;
* `chrono::NaiveDate` is modelled as an integer day count with day 0 a
  Thursday (1970-01-01), so `num_days_from_monday d = (d + 3) % 7`.

Character classification (`is_whitespace`, lowercasing) is modelled on the
ASCII fragment, which covers every character class the claims exercise.
-/

/-! ## Basic character and string helpers (Rust `str` operations) -/

/-- ASCII whitespace test modelling `char::is_whitespace` on the ASCII range. -/
def isWsChar (c : Char) : Bool :=
  c = ' ' ∨ c = '\t' ∨ c = '\n' ∨ c = '\r' ∨ c = Char.ofNat 11 ∨ c = Char.ofNat 12

/-- ASCII lowercasing of a character, modelling `char::to_lowercase`. -/
def toLowerChar (c : Char) : Char :=
  if 'A' ≤ c ∧ c ≤ 'Z' then Char.ofNat (c.toNat + 32) else c

/-- Lowercase a string (Rust `str::to_lowercase`). -/
def toLowerStr (s : List Char) : List Char := s.map toLowerChar

/-- Rust `str::trim_start`. -/
def trimStart (s : List Char) : List Char := s.dropWhile isWsChar

/-- Rust `str::trim_end`. -/
def trimEnd (s : List Char) : List Char := (s.reverse.dropWhile isWsChar).reverse

/-- Rust `str::trim`. -/
def trimChars (s : List Char) : List Char := trimEnd (trimStart s)

/-- The backtick character (used for fences and inline code delimiters). -/
def btChar : Char := Char.ofNat 96

/-- Convenience: characters of a string literal. -/
def toChars (s : String) : List Char := s.data

/-! ## C9: week-start normalisation and the seven week days

`src/ui/views.rs`:

```
pub fn week_start(date: NaiveDate) -> NaiveDate {
    let weekday = date.weekday();
    let days_from_monday = weekday.num_days_from_monday();
    date - Duration::days(days_from_monday as i64)
}

pub fn all_days(&self) -> Vec<NaiveDate> {
    (0..7).map(|i| self.week_start + Duration::days(i)).collect()
}
```

Dates are embedded as integer day numbers with day 0 = 1970-01-01, a
Thursday, so chrono's `weekday().num_days_from_monday()` is `(d + 3) % 7`.
-/

/-- chrono `date.weekday().num_days_from_monday()` on the day-number model. -/
def num_days_from_monday (d : Int) : Int := (d + 3) % 7

/-- `week_start` from `src/ui/views.rs`. -/
def week_start (d : Int) : Int := d - num_days_from_monday d

/-- `WeekData::all_days` from `src/ui/views.rs`; the field `week_start` is
passed explicitly. -/
def all_days (weekStart : Int) : List Int :=
  (List.range 7).map (fun i => weekStart + (i : Int))

/-- C9: `week_start_of(d)` returns a Monday that is at most 6 days before `d`
(equal to `d` when `d` is itself a Monday), and `all_days()` returns exactly
the 7 consecutive dates starting at the week start. -/
theorem c9_week_start_monday :
    ∀ d : Int,
      num_days_from_monday (week_start d) = 0 ∧
      week_start d ≤ d ∧ d ≤ week_start d + 6 ∧
      (num_days_from_monday d = 0 → week_start d = d) ∧
      all_days (week_start d) =
        [week_start d, week_start d + 1, week_start d + 2, week_start d + 3,
         week_start d + 4, week_start d + 5, week_start d + 6] := by
  intro d
  unfold all_days week_start num_days_from_monday
  refine ⟨?_, ?_, ?_, ?_, ?_⟩
  · omega
  · omega
  · omega
  · omega
  · simp [List.range_succ]

/-- Witness for C9 at the concrete date 1970-01-05 (day 4, a Monday). -/
theorem c9_week_start_monday_witness :
    week_start 4 = 4 ∧ num_days_from_monday (week_start 10) = 0 := by
  refine ⟨(c9_week_start_monday 4).2.2.2.1 (by decide), (c9_week_start_monday 10).1⟩

/-! ## Decimal digit strings and integer parsing helpers -/

/-- Numeric value of an ASCII digit character. -/
def digitVal (c : Char) : Nat := c.toNat - 48

/-- Value of a digit string read most-significant-first. -/
def digitsVal (l : List Char) : Nat := l.foldl (fun a c => 10 * a + digitVal c) 0

/-- Fuelled digit rendering (most significant digit first, no leading zeros). -/
def natDigitsAux : Nat → Nat → List Char
  | 0, _ => []
  | fuel + 1, n =>
      if n = 0 then [] else natDigitsAux fuel (n / 10) ++ [Char.ofNat (48 + n % 10)]

/-- Canonical decimal rendering of a natural number. -/
def decimalString (n : Nat) : List Char :=
  if n = 0 then ['0'] else natDigitsAux n n

/-- Rust `str::parse::<u32>()`: optional leading `+`, then one or more ASCII
digits, rejecting overflow past `u32::MAX`. -/
def parseU32 (l : List Char) : Option Nat :=
  let l2 := if l.head? = some '+' then l.tail else l
  if l2 ≠ [] ∧ l2.all Char.isDigit ∧ digitsVal l2 < 2 ^ 32 then some (digitsVal l2)
  else none

/-- Rust `format!("{:02}", n)`: zero-pad to width 2. -/
def pad2 (n : Nat) : List Char :=
  if n < 10 then '0' :: decimalString n else decimalString n

/-! ## `parse_start_time` (src/api/time.rs) -/

/-- The am/pm-suffix stripping block of `parse_start_time`: checks, in order,
for the trailing suffixes `pm`, `am`, `p`, `a`, returning the remaining text
and the pm flag. -/
def stripAmPm (input : List Char) : List Char × Bool :=
  if (toChars "pm").isSuffixOf input then (input.take (input.length - 2), true)
  else if (toChars "am").isSuffixOf input then (input.take (input.length - 2), false)
  else if ['p'].isSuffixOf input then (input.take (input.length - 1), true)
  else if ['a'].isSuffixOf input then (input.take (input.length - 1), false)
  else (input, false)

/-- The hour/minute parsing block of `parse_start_time`: the remainder is
either `H` or `H:MM`, with an unparseable or missing minute defaulting to 0. -/
def pstHourMin (time_part : List Char) : Option (Nat × Nat) :=
  if time_part.contains ':' then
    match parseU32 ((time_part.splitOn ':').headD []) with
    | none => none
    | some h => some (h, (((time_part.splitOn ':')[1]?).bind parseU32).getD 0)
  else
    match parseU32 time_part with
    | none => none
    | some h => some (h, 0)

/-- The 12-hour to 24-hour conversion of `parse_start_time` (`hasA` records
whether the whole normalised input contains the letter `a`). -/
def hour24Of (is_pm : Bool) (hour : Nat) (hasA : Bool) : Nat :=
  if is_pm = true ∧ hour < 12 then hour + 12
  else if is_pm = false ∧ hour = 12 ∧ hasA = true then 0
  else hour

/-- The tail of `parse_start_time` after the am/pm suffix has been stripped. -/
def pstAfterStrip (input time_part : List Char) (is_pm : Bool) : Option (List Char) :=
  match pstHourMin (trimChars time_part) with
  | none => none
  | some (hour, minute) =>
    if 23 < hour24Of is_pm hour (input.contains 'a') ∨ 59 < minute then none
    else some (pad2 (hour24Of is_pm hour (input.contains 'a')) ++ ':' ::
      pad2 minute ++ toChars ":00")

/-- `parse_start_time` from `src/api/time.rs`: parse a user-entered start time
such as `9:00am`, `14:30` or `2pm` into an `HH:MM:SS` string. -/
def parse_start_time (s : List Char) : Option (List Char) :=
  if toLowerStr (trimChars s) = [] then none
  else pstAfterStrip (toLowerStr (trimChars s))
    (stripAmPm (toLowerStr (trimChars s))).1 (stripAmPm (toLowerStr (trimChars s))).2

theorem pst_sanity_9am : parse_start_time (toChars "9am") = some (toChars "09:00:00") := by decide
theorem pst_sanity_230pm : parse_start_time (toChars "2:30pm") = some (toChars "14:30:00") := by decide
theorem pst_sanity_2500 : parse_start_time (toChars "25:00") = none := by decide
theorem pst_sanity_9xx : parse_start_time (toChars "9:xx") = some (toChars "09:00:00") := by decide
theorem pst_sanity_93045 : parse_start_time (toChars "9:30:45") = some (toChars "09:30:00") := by decide
theorem pst_sanity_12am_padded : parse_start_time (toChars " 12 AM ") = some (toChars "00:00:00") := by decide
theorem pst_sanity_12 : parse_start_time (toChars "12") = some (toChars "12:00:00") := by decide
theorem pst_sanity_12p : parse_start_time (toChars "12p") = some (toChars "12:00:00") := by decide

/-! ## Toolkit lemmas about digits, trimming and suffix stripping -/

theorem natDigitsAux_zero (f : Nat) : natDigitsAux f 0 = [] := by
  cases f <;> simp [natDigitsAux]

theorem digitsVal_append (xs : List Char) (c : Char) :
    digitsVal (xs ++ [c]) = 10 * digitsVal xs + digitVal c := by
  simp [digitsVal, List.foldl_append]

theorem char_digit_isDigit (k : Nat) (h : k < 10) :
    (Char.ofNat (48 + k)).isDigit = true := by
  interval_cases k <;> decide

theorem digitVal_char (k : Nat) (h : k < 10) : digitVal (Char.ofNat (48 + k)) = k := by
  interval_cases k <;> decide

theorem natDigitsAux_spec :
    ∀ fuel n, 0 < n → n ≤ fuel →
      digitsVal (natDigitsAux fuel n) = n ∧
      (natDigitsAux fuel n).all Char.isDigit = true ∧ natDigitsAux fuel n ≠ [] := by
  intro fuel
  induction fuel with
  | zero => intro n h1 h2; omega
  | succ f ih =>
    intro n h1 h2
    have hn : n ≠ 0 := by omega
    simp only [natDigitsAux, if_neg hn]
    by_cases h10 : n / 10 = 0
    · have hlt : n < 10 := by omega
      rw [h10, natDigitsAux_zero]
      refine ⟨?_, ?_, ?_⟩
      · simp [digitsVal, digitVal_char (n % 10) (by omega)]
        omega
      · simp [char_digit_isDigit (n % 10) (by omega)]
      · simp
    · have hpos : 0 < n / 10 := Nat.pos_of_ne_zero h10
      have hle : n / 10 ≤ f := by
        have := Nat.div_lt_self h1 (by norm_num : 1 < 10)
        omega
      obtain ⟨hv, ha, hne⟩ := ih (n / 10) hpos hle
      refine ⟨?_, ?_, ?_⟩
      · rw [digitsVal_append, hv, digitVal_char (n % 10) (by omega)]
        omega
      · simp [List.all_append, ha, char_digit_isDigit (n % 10) (by omega)]
      · simp

theorem decimalString_spec (n : Nat) :
    digitsVal (decimalString n) = n ∧
    (decimalString n).all Char.isDigit = true ∧ decimalString n ≠ [] := by
  by_cases h : n = 0
  · subst h; refine ⟨by decide, by decide, by decide⟩
  · simp only [decimalString, if_neg h]
    exact natDigitsAux_spec n n (Nat.pos_of_ne_zero h) le_rfl

/-- A nonempty all-digit string (such as a canonical decimal rendering) parses
back to its value under `parseU32`. -/
theorem parseU32_digits {l : List Char} (hne : l ≠ []) (ha : l.all Char.isDigit = true)
    (h : digitsVal l < 2 ^ 32) : parseU32 l = some (digitsVal l) := by
  have hhead : l.head? ≠ some '+' := by
    intro he
    cases l with
    | nil => simp at he
    | cons c t =>
      simp only [List.head?_cons, Option.some_inj] at he
      have hc := List.all_eq_true.mp ha c (List.mem_cons_self _ _)
      rw [he] at hc
      exact absurd hc (by decide)
  unfold parseU32
  simp only [if_neg hhead]
  rw [if_pos ⟨hne, ha, h⟩]

theorem parseU32_decimalString (n : Nat) (h : n < 2 ^ 32) :
    parseU32 (decimalString n) = some n := by
  obtain ⟨hv, ha, hne⟩ := decimalString_spec n
  have h2 : digitsVal (decimalString n) < 2 ^ 32 := by rw [hv]; exact h
  rw [parseU32_digits hne ha h2, hv]

theorem char_le_toNat {a b : Char} : (a ≤ b) ↔ a.toNat ≤ b.toNat := by
  rw [Char.le_def, UInt32.le_def, BitVec.le_def]
  rfl

theorem isDigit_toNat {c : Char} (h : c.isDigit = true) :
    48 ≤ c.toNat ∧ c.toNat ≤ 57 := by
  unfold Char.isDigit at h
  rw [Bool.and_eq_true] at h
  have h1 := of_decide_eq_true h.1
  have h2 := of_decide_eq_true h.2
  rw [ge_iff_le, UInt32.le_def, BitVec.le_def] at h1
  rw [UInt32.le_def, BitVec.le_def] at h2
  exact ⟨h1, h2⟩

theorem char_ne_of_toNat {c d : Char} (h : c.toNat ≠ d.toNat) : c ≠ d := by
  intro he; exact h (he ▸ rfl)

theorem isWsChar_eq_false {c : Char} (h : 33 ≤ c.toNat) : isWsChar c = false := by
  simp only [isWsChar, decide_eq_false_iff_not]
  push_neg
  have e1 : (' ').toNat = 32 := rfl
  have e2 : ('\t').toNat = 9 := rfl
  have e3 : ('\n').toNat = 10 := rfl
  have e4 : ('\r').toNat = 13 := rfl
  have e5 : (Char.ofNat 11).toNat = 11 := rfl
  have e6 : (Char.ofNat 12).toNat = 12 := rfl
  exact ⟨char_ne_of_toNat (by omega), char_ne_of_toNat (by omega),
    char_ne_of_toNat (by omega), char_ne_of_toNat (by omega),
    char_ne_of_toNat (by omega), char_ne_of_toNat (by omega)⟩

theorem toLowerChar_eq_self {c : Char} (h : c.toNat < 65 ∨ 90 < c.toNat) :
    toLowerChar c = c := by
  unfold toLowerChar
  rw [if_neg]
  rintro ⟨h1, h2⟩
  rw [char_le_toNat] at h1 h2
  have e1 : ('A').toNat = 65 := rfl
  have e2 : ('Z').toNat = 90 := rfl
  omega

/-- Digits are inert for all the special character tests used by the parsers. -/
theorem digit_props {c : Char} (h : c.isDigit = true) :
    c ≠ 'a' ∧ c ≠ 'p' ∧ c ≠ 'm' ∧ c ≠ ':' ∧ c ≠ '.' ∧ c ≠ 'h' ∧ c ≠ 's' ∧
    isWsChar c = false ∧ toLowerChar c = c := by
  obtain ⟨h1, h2⟩ := isDigit_toNat h
  have ea : ('a').toNat = 97 := rfl
  have ep : ('p').toNat = 112 := rfl
  have em : ('m').toNat = 109 := rfl
  have ec : (':').toNat = 58 := rfl
  have ed : ('.').toNat = 46 := rfl
  have eh : ('h').toNat = 104 := rfl
  have es : ('s').toNat = 115 := rfl
  refine ⟨char_ne_of_toNat (by omega), char_ne_of_toNat (by omega),
    char_ne_of_toNat (by omega), char_ne_of_toNat (by omega),
    char_ne_of_toNat (by omega), char_ne_of_toNat (by omega),
    char_ne_of_toNat (by omega), isWsChar_eq_false (by omega),
    toLowerChar_eq_self (by omega)⟩

theorem toLowerStr_eq_self {s : List Char} (h : ∀ c ∈ s, toLowerChar c = c) :
    toLowerStr s = s := by
  unfold toLowerStr
  induction s with
  | nil => rfl
  | cons c t ih =>
    simp only [List.map_cons, h c (by simp)]
    rw [ih (fun x hx => h x (by simp [hx]))]

theorem toNat_ofNat_valid {n : Nat} (h : n < 55296) : (Char.ofNat n).toNat = n := by
  unfold Char.ofNat
  rw [dif_pos (Or.inl (by omega) : Nat.isValidChar n)]
  rfl

theorem trimStart_eq_self {s : List Char}
    (h : ∀ c, s.head? = some c → isWsChar c = false) : trimStart s = s := by
  cases s with
  | nil => rfl
  | cons c t =>
    unfold trimStart
    simp [List.dropWhile_cons, h c rfl]

theorem trimEnd_eq_self {s : List Char}
    (h : ∀ c, s.getLast? = some c → isWsChar c = false) : trimEnd s = s := by
  unfold trimEnd
  have hrw : s.reverse.dropWhile isWsChar = s.reverse := by
    cases hr : s.reverse with
    | nil => rfl
    | cons c t =>
      have hc : s.getLast? = some c := by
        rw [List.getLast?_eq_head?_reverse, hr]
        rfl
      simp [List.dropWhile_cons, h c hc]
  rw [hrw, List.reverse_reverse]

theorem trimChars_eq_self {s : List Char}
    (h1 : ∀ c, s.head? = some c → isWsChar c = false)
    (h2 : ∀ c, s.getLast? = some c → isWsChar c = false) : trimChars s = s := by
  unfold trimChars
  rw [trimStart_eq_self h1, trimEnd_eq_self h2]

theorem contains_of_mem {l : List Char} {a : Char} (h : a ∈ l) : l.contains a = true :=
  List.contains_iff_exists_mem_beq.mpr ⟨a, h, by simp⟩

theorem contains_eq_false {l : List Char} {a : Char} (h : a ∉ l) : l.contains a = false := by
  rw [Bool.eq_false_iff]
  intro hc
  obtain ⟨b, hb, hab⟩ := List.contains_iff_exists_mem_beq.mp hc
  rw [beq_iff_eq] at hab
  exact h (hab ▸ hb)

/-! Suffix-detection lemmas: whether a two- or one-character pattern is a
suffix is determined by the final characters of the string. -/

theorem isSuffixOf_append (suf base : List Char) : suf.isSuffixOf (base ++ suf) = true := by
  rw [List.isSuffixOf_iff_suffix]
  exact ⟨base, rfl⟩

theorem suffix2_false_lastne {x y d : Char} {u : List Char} (s : List Char)
    (hs : s = u ++ [d]) (hd : d ≠ y) : [x, y].isSuffixOf s = false := by
  rw [Bool.eq_false_iff]
  intro hsuf
  rw [List.isSuffixOf_iff_suffix] at hsuf
  obtain ⟨t, ht⟩ := hsuf
  have h1 : (t ++ [x, y]).getLast? = some y := by
    rw [show t ++ [x, y] = (t ++ [x]) ++ [y] by simp]
    exact List.getLast?_concat _
  rw [ht, hs, List.getLast?_concat] at h1
  exact hd (Option.some_inj.mp h1)

theorem suffix1_false_lastne {y d : Char} {u : List Char} (s : List Char)
    (hs : s = u ++ [d]) (hd : d ≠ y) : [y].isSuffixOf s = false := by
  rw [Bool.eq_false_iff]
  intro hsuf
  rw [List.isSuffixOf_iff_suffix] at hsuf
  obtain ⟨t, ht⟩ := hsuf
  have h1 : (t ++ [y]).getLast? = some y := List.getLast?_concat _
  rw [ht, hs, List.getLast?_concat] at h1
  exact hd (Option.some_inj.mp h1)

theorem suffix2_false_sndne {x y a b : Char} {u : List Char} (s : List Char)
    (hs : s = u ++ [a, b]) (ha : a ≠ x) : [x, y].isSuffixOf s = false := by
  rw [Bool.eq_false_iff]
  intro hsuf
  rw [List.isSuffixOf_iff_suffix] at hsuf
  obtain ⟨t, ht⟩ := hsuf
  rw [hs] at ht
  obtain ⟨-, h2⟩ := List.append_inj' ht rfl
  cases h2
  exact ha rfl

theorem take_all_but_one (base : List Char) (a : Char) :
    (base ++ [a]).take ((base ++ [a]).length - 1) = base := by
  have h : (base ++ [a]).length - 1 = base.length := by simp
  rw [h, List.take_left]

theorem take_all_but_two (base : List Char) (a b : Char) :
    (base ++ [a, b]).take ((base ++ [a, b]).length - 2) = base := by
  have h : (base ++ [a, b]).length - 2 = base.length := by simp
  rw [h, List.take_left]

/-! Behaviour of `stripAmPm` on strings classified by their final characters. -/

theorem stripAmPm_digit {u : List Char} {d : Char} (base : List Char)
    (hb : base = u ++ [d]) (hd : d.isDigit = true) : stripAmPm base = (base, false) := by
  obtain ⟨-, hp, hm, -, -, -, -, -, -⟩ := digit_props hd
  have e1 : toChars "pm" = ['p', 'm'] := rfl
  have e2 : toChars "am" = ['a', 'm'] := rfl
  unfold stripAmPm
  rw [e1, e2, suffix2_false_lastne base hb hm, suffix2_false_lastne base hb hm,
    suffix1_false_lastne base hb hp,
    suffix1_false_lastne base hb (digit_props hd).1]
  simp

theorem stripAmPm_colon (base u : List Char) (hb : base = u ++ [':']) :
    stripAmPm base = (base, false) := by
  have e1 : toChars "pm" = ['p', 'm'] := rfl
  have e2 : toChars "am" = ['a', 'm'] := rfl
  unfold stripAmPm
  rw [e1, e2, suffix2_false_lastne base hb (by decide), suffix2_false_lastne base hb (by decide),
    suffix1_false_lastne base hb (by decide), suffix1_false_lastne base hb (by decide)]
  simp

theorem stripAmPm_a (base : List Char) :
    stripAmPm (base ++ ['a']) = (base, false) := by
  have e1 : toChars "pm" = ['p', 'm'] := rfl
  have e2 : toChars "am" = ['a', 'm'] := rfl
  unfold stripAmPm
  rw [e1, e2, suffix2_false_lastne (base ++ ['a']) rfl (by decide),
    suffix2_false_lastne (base ++ ['a']) rfl (by decide),
    suffix1_false_lastne (base ++ ['a']) rfl (by decide),
    isSuffixOf_append ['a'] base, take_all_but_one]
  simp

theorem stripAmPm_p (base : List Char) :
    stripAmPm (base ++ ['p']) = (base, true) := by
  have e1 : toChars "pm" = ['p', 'm'] := rfl
  have e2 : toChars "am" = ['a', 'm'] := rfl
  unfold stripAmPm
  rw [e1, e2, suffix2_false_lastne (base ++ ['p']) rfl (by decide),
    suffix2_false_lastne (base ++ ['p']) rfl (by decide),
    isSuffixOf_append ['p'] base, take_all_but_one]
  simp

theorem stripAmPm_am (base : List Char) :
    stripAmPm (base ++ ['a', 'm']) = (base, false) := by
  have e1 : toChars "pm" = ['p', 'm'] := rfl
  have e2 : toChars "am" = ['a', 'm'] := rfl
  unfold stripAmPm
  rw [e1, e2, suffix2_false_sndne (base ++ ['a', 'm']) rfl (by decide),
    isSuffixOf_append ['a', 'm'] base, take_all_but_two]
  simp

theorem stripAmPm_pm (base : List Char) :
    stripAmPm (base ++ ['p', 'm']) = (base, true) := by
  have e1 : toChars "pm" = ['p', 'm'] := rfl
  unfold stripAmPm
  rw [e1, isSuffixOf_append ['p', 'm'] base, take_all_but_two]
  simp

/-! `splitOn` lemmas for colon-separated time strings. -/

theorem splitOn_no_sep {l : List Char} (h : ':' ∉ l) : l.splitOn ':' = [l] := by
  unfold List.splitOn
  exact List.splitOnP_eq_single _ _ (fun x hx => by
    rw [beq_iff_eq]
    intro he
    exact h (he ▸ hx))

theorem splitOn_sep_head {xs : List Char} (ys : List Char) (h : ':' ∉ xs) :
    (xs ++ ':' :: ys).splitOn ':' = xs :: ys.splitOn ':' := by
  unfold List.splitOn
  exact List.splitOnP_first _ _ (fun x hx => by
    rw [beq_iff_eq]
    intro he
    exact h (he ▸ hx)) ':' (by simp) ys

theorem not_mem_of_all_digit {l : List Char} {c : Char}
    (ha : l.all Char.isDigit = true) (hc : c.isDigit = false) : c ∉ l := by
  intro hm
  have := List.all_eq_true.mp ha _ hm
  rw [hc] at this
  exact absurd this (by decide)

/-- Characters that are neither whitespace nor uppercase are untouched by the
input normalisation (trim then lowercase). -/
theorem normalize_inert {s : List Char}
    (hs : ∀ c ∈ s, 33 ≤ c.toNat ∧ (c.toNat < 65 ∨ 90 < c.toNat)) :
    toLowerStr (trimChars s) = s := by
  have ht : trimChars s = s := by
    apply trimChars_eq_self
    · intro c hc
      cases s with
      | nil => simp at hc
      | cons a t =>
        rw [List.head?_cons, Option.some_inj] at hc
        exact isWsChar_eq_false (hs c (hc ▸ List.mem_cons_self a t)).1
    · intro c hc
      have hm : c ∈ s := List.mem_of_getLast?_eq_some hc
      exact isWsChar_eq_false (hs c hm).1
  rw [ht]
  exact toLowerStr_eq_self (fun c hc => toLowerChar_eq_self (hs c hc).2)

theorem digit_inert {c : Char} (h : c.isDigit = true) :
    33 ≤ c.toNat ∧ (c.toNat < 65 ∨ 90 < c.toNat) := by
  have := isDigit_toNat h
  omega

/-! ## The C8/C10 evaluation skeleton for `parse_start_time` -/

theorem pstHourMin_colon {dh dm : List Char} {h m : Nat}
    (hdh : parseU32 dh = some h) (hdm : parseU32 dm = some m)
    (hcdh : ':' ∉ dh) (hcdm : ':' ∉ dm) :
    pstHourMin (dh ++ ':' :: dm) = some (h, m) := by
  unfold pstHourMin
  rw [contains_of_mem (by simp : ':' ∈ dh ++ ':' :: dm), if_pos rfl,
    splitOn_sep_head _ hcdh, splitOn_no_sep hcdm, List.headD_cons,
    show (dh :: [dm])[1]? = some dm from rfl, Option.some_bind, hdm,
    Option.getD_some, hdh]

theorem pstHourMin_bare {l : List Char} {h : Nat}
    (hc : l.contains ':' = false) (hp : parseU32 l = some h) :
    pstHourMin l = some (h, 0) := by
  unfold pstHourMin
  rw [hc, if_neg (by decide : ¬ (false = true)), hp]

/-- Evaluation of `parse_start_time` on a well-formed `"H:MM"` body with an
already-analysed suffix. -/
theorem pst_eval_colon {base suf : List Char} {ispm : Bool} (h m : Nat)
    (hbase : base = decimalString h ++ ':' :: decimalString m)
    (hnorm : toLowerStr (trimChars (base ++ suf)) = base ++ suf)
    (hstrip : stripAmPm (base ++ suf) = (base, ispm))
    (hh : h < 2 ^ 32) (hm : m < 2 ^ 32) :
    parse_start_time (base ++ suf) =
      (if 23 < hour24Of ispm h ((base ++ suf).contains 'a') ∨ 59 < m then none
       else some (pad2 (hour24Of ispm h ((base ++ suf).contains 'a')) ++ ':' ::
         pad2 m ++ toChars ":00")) := by
  subst hbase
  obtain ⟨hvH, haH, hneH⟩ := decimalString_spec h
  obtain ⟨hvM, haM, hneM⟩ := decimalString_spec m
  have hcolon_dh : ':' ∉ decimalString h := not_mem_of_all_digit haH (by decide)
  have hcolon_dm : ':' ∉ decimalString m := not_mem_of_all_digit haM (by decide)
  have hrawne : (decimalString h ++ ':' :: decimalString m) ++ suf ≠ [] := by
    cases hd : decimalString h with
    | nil => exact absurd hd hneH
    | cons a t => simp
  have htp : trimChars (decimalString h ++ ':' :: decimalString m) =
      decimalString h ++ ':' :: decimalString m := by
    apply trimChars_eq_self
    · intro c hc
      cases hd : decimalString h with
      | nil => exact absurd hd hneH
      | cons a t =>
        rw [hd, List.cons_append, List.head?_cons, Option.some_inj] at hc
        have ha : a.isDigit = true := by
          have := List.all_eq_true.mp haH a (by rw [hd]; exact List.mem_cons_self a t)
          exact this
        exact (digit_props (hc ▸ ha)).2.2.2.2.2.2.2.1
    · intro c hc
      have hsplitLast : decimalString h ++ ':' :: decimalString m =
          (decimalString h ++ ':' :: (decimalString m).dropLast) ++
            [(decimalString m).getLast hneM] := by
        conv_lhs => rw [← List.dropLast_append_getLast hneM]
        simp
      rw [hsplitLast, List.getLast?_concat, Option.some_inj] at hc
      have hd : c.isDigit = true := by
        have := List.all_eq_true.mp haM _ (hc ▸ List.getLast_mem hneM)
        exact this
      exact (digit_props hd).2.2.2.2.2.2.2.1
  have h1 : (stripAmPm ((decimalString h ++ ':' :: decimalString m) ++ suf)).1 =
      decimalString h ++ ':' :: decimalString m := by rw [hstrip]
  have h2 : (stripAmPm ((decimalString h ++ ':' :: decimalString m) ++ suf)).2 = ispm := by
    rw [hstrip]
  have hhm := pstHourMin_colon (parseU32_decimalString h hh)
    (parseU32_decimalString m hm) hcolon_dh hcolon_dm
  unfold parse_start_time
  rw [hnorm, if_neg hrawne, h1, h2]
  unfold pstAfterStrip
  rw [htp, hhm]

/-- Evaluation of `parse_start_time` on a well-formed bare-hour body with an
already-analysed suffix. -/
theorem pst_eval_bare {base suf : List Char} {ispm : Bool} (h : Nat)
    (hbase : base = decimalString h)
    (hnorm : toLowerStr (trimChars (base ++ suf)) = base ++ suf)
    (hstrip : stripAmPm (base ++ suf) = (base, ispm))
    (hh : h < 2 ^ 32) :
    parse_start_time (base ++ suf) =
      (if 23 < hour24Of ispm h ((base ++ suf).contains 'a') then none
       else some (pad2 (hour24Of ispm h ((base ++ suf).contains 'a')) ++ ':' ::
         pad2 0 ++ toChars ":00")) := by
  subst hbase
  obtain ⟨hvH, haH, hneH⟩ := decimalString_spec h
  have hrawne : decimalString h ++ suf ≠ [] := by
    cases hd : decimalString h with
    | nil => exact absurd hd hneH
    | cons a t => simp
  have htp : trimChars (decimalString h) = decimalString h := by
    apply trimChars_eq_self
    · intro c hc
      cases hd : decimalString h with
      | nil => exact absurd hd hneH
      | cons a t =>
        rw [hd, List.head?_cons, Option.some_inj] at hc
        have ha : a.isDigit = true := by
          have := List.all_eq_true.mp haH a (by rw [hd]; exact List.mem_cons_self a t)
          exact this
        exact (digit_props (hc ▸ ha)).2.2.2.2.2.2.2.1
    · intro c hc
      have hsplitLast : decimalString h =
          (decimalString h).dropLast ++ [(decimalString h).getLast hneH] := by
        rw [List.dropLast_append_getLast hneH]
      rw [hsplitLast, List.getLast?_concat, Option.some_inj] at hc
      have hd : c.isDigit = true := by
        have := List.all_eq_true.mp haH _ (hc ▸ List.getLast_mem hneH)
        exact this
      exact (digit_props hd).2.2.2.2.2.2.2.1
  have hcf : (decimalString h).contains ':' = false := by
    apply contains_eq_false
    exact not_mem_of_all_digit haH (by decide)
  have h1 : (stripAmPm (decimalString h ++ suf)).1 = decimalString h := by rw [hstrip]
  have h2 : (stripAmPm (decimalString h ++ suf)).2 = ispm := by rw [hstrip]
  have hhm := pstHourMin_bare hcf (parseU32_decimalString h hh)
  unfold parse_start_time
  rw [hnorm, if_neg hrawne, h1, h2]
  unfold pstAfterStrip
  rw [htp, hhm]
  simp

/-! ## Normalisation (trim + lowercase) is idempotent -/

theorem isWs_toLower (c : Char) : isWsChar (toLowerChar c) = isWsChar c := by
  unfold toLowerChar
  split
  next hup =>
    obtain ⟨h1, h2⟩ := hup
    rw [char_le_toNat] at h1 h2
    have e1 : ('A').toNat = 65 := rfl
    have e2 : ('Z').toNat = 90 := rfl
    have hv : (Char.ofNat (c.toNat + 32)).toNat = c.toNat + 32 :=
      toNat_ofNat_valid (by omega)
    rw [isWsChar_eq_false (by rw [hv]; omega), isWsChar_eq_false (by omega)]
  next => rfl

theorem toLowerChar_idem (c : Char) : toLowerChar (toLowerChar c) = toLowerChar c := by
  by_cases hup : 'A' ≤ c ∧ c ≤ 'Z'
  · have h1 : toLowerChar c = Char.ofNat (c.toNat + 32) := by
      unfold toLowerChar
      rw [if_pos hup]
    obtain ⟨hu1, hu2⟩ := hup
    rw [char_le_toNat] at hu1 hu2
    have e1 : ('A').toNat = 65 := rfl
    have e2 : ('Z').toNat = 90 := rfl
    have hv : (Char.ofNat (c.toNat + 32)).toNat = c.toNat + 32 :=
      toNat_ofNat_valid (by omega)
    rw [h1]
    exact toLowerChar_eq_self (by omega)
  · have h1 : toLowerChar c = c := by
      unfold toLowerChar
      rw [if_neg hup]
    rw [h1, h1]

theorem head_not_ws_of_dropWhile_eq {x : List Char} (hx : x.dropWhile isWsChar = x) :
    ∀ a t, x = a :: t → isWsChar a = false := by
  intro a t hxat
  by_contra hws
  rw [Bool.not_eq_false] at hws
  rw [hxat, List.dropWhile_cons_of_pos hws] at hx
  have hlen := congrArg List.length hx
  have hle := (List.dropWhile_sublist (l := t) isWsChar).length_le
  simp only [List.length_cons] at hlen
  omega

theorem trimEnd_eq_rdropWhile (s : List Char) : trimEnd s = s.rdropWhile isWsChar := rfl

theorem trimChars_idem (s : List Char) : trimChars (trimChars s) = trimChars s := by
  unfold trimChars
  rw [trimEnd_eq_rdropWhile, trimEnd_eq_rdropWhile]
  have hx : (trimStart s).dropWhile isWsChar = trimStart s := by
    unfold trimStart
    exact List.dropWhile_idempotent _ _
  have hmid : trimStart ((trimStart s).rdropWhile isWsChar) =
      (trimStart s).rdropWhile isWsChar := by
    cases hy : (trimStart s).rdropWhile isWsChar with
    | nil => rfl
    | cons a t =>
      obtain ⟨u, hu⟩ := List.rdropWhile_prefix (l := trimStart s) (p := isWsChar)
      rw [hy] at hu
      have hhd := head_not_ws_of_dropWhile_eq hx a (t ++ u) (by rw [← hu]; simp)
      unfold trimStart
      rw [List.dropWhile_cons_of_neg (by rw [hhd]; exact Bool.false_ne_true)]
  rw [hmid, List.rdropWhile_idempotent _ _]

theorem trimStart_toLower (s : List Char) :
    trimStart (toLowerStr s) = toLowerStr (trimStart s) := by
  unfold trimStart toLowerStr
  rw [List.dropWhile_map]
  have hp : (isWsChar ∘ toLowerChar) = isWsChar := by
    funext c
    simp [Function.comp, isWs_toLower]
  rw [hp]

theorem trimEnd_toLower (s : List Char) :
    trimEnd (toLowerStr s) = toLowerStr (trimEnd s) := by
  unfold trimEnd toLowerStr
  have hp : (isWsChar ∘ toLowerChar) = isWsChar := by
    funext c
    simp [Function.comp, isWs_toLower]
  rw [← List.map_reverse, List.dropWhile_map, hp, ← List.map_reverse]

theorem trimChars_toLower (s : List Char) :
    trimChars (toLowerStr s) = toLowerStr (trimChars s) := by
  unfold trimChars
  rw [trimStart_toLower, trimEnd_toLower]

theorem toLowerStr_idem (s : List Char) : toLowerStr (toLowerStr s) = toLowerStr s := by
  unfold toLowerStr
  rw [List.map_map]
  have hp : (toLowerChar ∘ toLowerChar) = toLowerChar := by
    funext c
    simp [Function.comp, toLowerChar_idem]
  rw [hp]

theorem normalized_idem (s : List Char) :
    toLowerStr (trimChars (toLowerStr (trimChars s))) = toLowerStr (trimChars s) := by
  rw [trimChars_toLower, toLowerStr_idem, trimChars_idem]

theorem pst_normalize (s : List Char) :
    parse_start_time s = parse_start_time (toLowerStr (trimChars s)) := by
  unfold parse_start_time
  rw [normalized_idem]

/-! ## C8: the `parse_start_time` contract -/

/-- The 12-hour-to-24-hour conversion exactly as the claim words it, keyed on
the trailing suffix of the input. -/
def c8hour24 (h : Nat) (suf : List Char) : Nat :=
  if (suf == ['p'] || suf == ['p', 'm']) = true ∧ h < 12 then h + 12
  else if (suf == ['a'] || suf == ['a', 'm']) = true ∧ h = 12 then 0
  else h

/-- The output `parse_start_time` should produce according to the claim, for a
well-formed time body with hour `h`, minute `m` and meridiem suffix `suf`. -/
def c8Expected (h m : Nat) (suf : List Char) : Option (List Char) :=
  if 23 < c8hour24 h suf ∨ 59 < m then none
  else some (pad2 (c8hour24 h suf) ++ ':' :: pad2 m ++ toChars ":00")

theorem inert_colon_raw (h m : Nat) (suf : List Char)
    (hsuf : ∀ c ∈ suf, 33 ≤ c.toNat ∧ (c.toNat < 65 ∨ 90 < c.toNat)) :
    toLowerStr (trimChars ((decimalString h ++ ':' :: decimalString m) ++ suf)) =
      (decimalString h ++ ':' :: decimalString m) ++ suf := by
  obtain ⟨-, haH, -⟩ := decimalString_spec h
  obtain ⟨-, haM, -⟩ := decimalString_spec m
  apply normalize_inert
  intro c hc
  simp only [List.mem_append, List.mem_cons] at hc
  rcases hc with (hc | hc | hc) | hc
  · exact digit_inert (List.all_eq_true.mp haH _ hc)
  · subst hc; decide
  · exact digit_inert (List.all_eq_true.mp haM _ hc)
  · exact hsuf c hc

theorem inert_bare_raw (h : Nat) (suf : List Char)
    (hsuf : ∀ c ∈ suf, 33 ≤ c.toNat ∧ (c.toNat < 65 ∨ 90 < c.toNat)) :
    toLowerStr (trimChars (decimalString h ++ suf)) = decimalString h ++ suf := by
  obtain ⟨-, haH, -⟩ := decimalString_spec h
  apply normalize_inert
  intro c hc
  rcases List.mem_append.mp hc with hc | hc
  · exact digit_inert (List.all_eq_true.mp haH _ hc)
  · exact hsuf c hc

theorem a_not_mem_colon (h m : Nat) :
    'a' ∉ decimalString h ++ ':' :: decimalString m := by
  obtain ⟨-, haH, -⟩ := decimalString_spec h
  obtain ⟨-, haM, -⟩ := decimalString_spec m
  intro hmem
  simp only [List.mem_append, List.mem_cons] at hmem
  rcases hmem with hc | hc | hc
  · exact not_mem_of_all_digit haH (by decide) hc
  · exact absurd hc (by decide)
  · exact not_mem_of_all_digit haM (by decide) hc

theorem a_not_mem_bare (h : Nat) : 'a' ∉ decimalString h := by
  obtain ⟨-, haH, -⟩ := decimalString_spec h
  exact not_mem_of_all_digit haH (by decide)

theorem stripAmPm_colon_base (h m : Nat) :
    stripAmPm (decimalString h ++ ':' :: decimalString m) =
      (decimalString h ++ ':' :: decimalString m, false) := by
  obtain ⟨-, haM, hneM⟩ := decimalString_spec m
  apply stripAmPm_digit (u := decimalString h ++ ':' :: (decimalString m).dropLast)
    (d := (decimalString m).getLast hneM)
  · conv_lhs => rw [← List.dropLast_append_getLast hneM]
    simp
  · exact List.all_eq_true.mp haM _ (List.getLast_mem hneM)

theorem stripAmPm_bare_base (h : Nat) :
    stripAmPm (decimalString h) = (decimalString h, false) := by
  obtain ⟨-, haH, hneH⟩ := decimalString_spec h
  apply stripAmPm_digit (u := (decimalString h).dropLast)
    (d := (decimalString h).getLast hneH)
  · rw [List.dropLast_append_getLast hneH]
  · exact List.all_eq_true.mp haH _ (List.getLast_mem hneH)

/-- C8: `parse_start_time` trims and lowercases its input, strips a trailing
am/pm/a/p suffix (longest match first), parses the remainder as `H` or `H:MM`,
converts 12-hour input to 24-hour time (12am maps to 0, 12pm stays 12, pm adds
12 unless the hour is already at least 12), rejects an hour above 23 or a
minute above 59 with `none`, and otherwise returns the zero-padded
`HH:MM:00` string; in particular `9am`, `2:30pm` and `25:00` behave as the
claim's examples state. -/
theorem c8_parse_start_time_contract :
    (∀ s, parse_start_time s = parse_start_time (toLowerStr (trimChars s))) ∧
    (∀ h m suf, h < 2 ^ 32 → m < 2 ^ 32 →
      suf ∈ ([[], ['a'], ['a', 'm'], ['p'], ['p', 'm']] : List (List Char)) →
      parse_start_time ((decimalString h ++ ':' :: decimalString m) ++ suf) =
        c8Expected h m suf) ∧
    (∀ h suf, h < 2 ^ 32 →
      suf ∈ ([[], ['a'], ['a', 'm'], ['p'], ['p', 'm']] : List (List Char)) →
      parse_start_time (decimalString h ++ suf) = c8Expected h 0 suf) ∧
    parse_start_time (toChars "9am") = some (toChars "09:00:00") ∧
    parse_start_time (toChars "2:30pm") = some (toChars "14:30:00") ∧
    parse_start_time (toChars "25:00") = none := by
  refine ⟨pst_normalize, ?_, ?_, by decide, by decide, by decide⟩
  · intro h m suf hh hm hsuf
    simp only [List.mem_cons, List.mem_singleton, List.not_mem_nil, or_false] at hsuf
    rcases hsuf with rfl | rfl | rfl | rfl | rfl
    · have hstrip : stripAmPm ((decimalString h ++ ':' :: decimalString m) ++ []) =
          (decimalString h ++ ':' :: decimalString m, false) := by
        rw [List.append_nil]
        exact stripAmPm_colon_base h m
      have hca : ((decimalString h ++ ':' :: decimalString m) ++
          ([] : List Char)).contains 'a' = false := by
        rw [List.append_nil]
        exact contains_eq_false (a_not_mem_colon h m)
      rw [pst_eval_colon h m rfl (inert_colon_raw h m [] (by decide)) hstrip hh hm, hca]
      simp [c8Expected, c8hour24, hour24Of]
    · have hca : ((decimalString h ++ ':' :: decimalString m) ++
          ['a']).contains 'a' = true := contains_of_mem (by simp)
      rw [pst_eval_colon h m rfl (inert_colon_raw h m ['a'] (by decide))
        (stripAmPm_a _) hh hm, hca]
      simp [c8Expected, c8hour24, hour24Of]
    · have hca : ((decimalString h ++ ':' :: decimalString m) ++
          ['a', 'm']).contains 'a' = true := contains_of_mem (by simp)
      rw [pst_eval_colon h m rfl (inert_colon_raw h m ['a', 'm'] (by decide))
        (stripAmPm_am _) hh hm, hca]
      simp [c8Expected, c8hour24, hour24Of]
    · have hca : ((decimalString h ++ ':' :: decimalString m) ++
          ['p']).contains 'a' = false := by
        apply contains_eq_false
        intro hmem
        rcases List.mem_append.mp hmem with hc | hc
        · exact a_not_mem_colon h m hc
        · exact absurd hc (by decide)
      rw [pst_eval_colon h m rfl (inert_colon_raw h m ['p'] (by decide))
        (stripAmPm_p _) hh hm, hca]
      simp [c8Expected, c8hour24, hour24Of]
    · have hca : ((decimalString h ++ ':' :: decimalString m) ++
          ['p', 'm']).contains 'a' = false := by
        apply contains_eq_false
        intro hmem
        rcases List.mem_append.mp hmem with hc | hc
        · exact a_not_mem_colon h m hc
        · exact absurd hc (by decide)
      rw [pst_eval_colon h m rfl (inert_colon_raw h m ['p', 'm'] (by decide))
        (stripAmPm_pm _) hh hm, hca]
      simp [c8Expected, c8hour24, hour24Of]
  · intro h suf hh hsuf
    simp only [List.mem_cons, List.mem_singleton, List.not_mem_nil, or_false] at hsuf
    rcases hsuf with rfl | rfl | rfl | rfl | rfl
    · have hstrip : stripAmPm (decimalString h ++ []) = (decimalString h, false) := by
        rw [List.append_nil]
        exact stripAmPm_bare_base h
      have hca : (decimalString h ++ ([] : List Char)).contains 'a' = false := by
        rw [List.append_nil]
        exact contains_eq_false (a_not_mem_bare h)
      rw [pst_eval_bare h rfl (inert_bare_raw h [] (by decide)) hstrip hh, hca]
      simp [c8Expected, c8hour24, hour24Of]
    · have hca : (decimalString h ++ ['a']).contains 'a' = true :=
        contains_of_mem (by simp)
      rw [pst_eval_bare h rfl (inert_bare_raw h ['a'] (by decide))
        (stripAmPm_a _) hh, hca]
      simp [c8Expected, c8hour24, hour24Of]
    · have hca : (decimalString h ++ ['a', 'm']).contains 'a' = true :=
        contains_of_mem (by simp)
      rw [pst_eval_bare h rfl (inert_bare_raw h ['a', 'm'] (by decide))
        (stripAmPm_am _) hh, hca]
      simp [c8Expected, c8hour24, hour24Of]
    · have hca : (decimalString h ++ ['p']).contains 'a' = false := by
        apply contains_eq_false
        intro hmem
        rcases List.mem_append.mp hmem with hc | hc
        · exact a_not_mem_bare h hc
        · exact absurd hc (by decide)
      rw [pst_eval_bare h rfl (inert_bare_raw h ['p'] (by decide))
        (stripAmPm_p _) hh, hca]
      simp [c8Expected, c8hour24, hour24Of]
    · have hca : (decimalString h ++ ['p', 'm']).contains 'a' = false := by
        apply contains_eq_false
        intro hmem
        rcases List.mem_append.mp hmem with hc | hc
        · exact a_not_mem_bare h hc
        · exact absurd hc (by decide)
      rw [pst_eval_bare h rfl (inert_bare_raw h ['p', 'm'] (by decide))
        (stripAmPm_pm _) hh, hca]
      simp [c8Expected, c8hour24, hour24Of]

/-- Witness for C8: the contract applied at the concrete input `2:30pm`. -/
theorem c8_parse_start_time_contract_witness :
    parse_start_time ((decimalString 2 ++ ':' :: decimalString 30) ++ ['p', 'm']) =
      some (toChars "14:30:00") := by
  have := c8_parse_start_time_contract.2.1 2 30 ['p', 'm'] (by norm_num) (by norm_num)
    (by simp)
  rw [this]
  decide

/-! ## C10: lenient minute parsing -/

/-- A string whose last character is none of `a`, `p`, `m` has no am/pm
suffix stripped. -/
theorem stripAmPm_lastne {u : List Char} {d : Char} (base : List Char)
    (hb : base = u ++ [d]) (hda : d ≠ 'a') (hdp : d ≠ 'p') (hdm : d ≠ 'm') :
    stripAmPm base = (base, false) := by
  have e1 : toChars "pm" = ['p', 'm'] := rfl
  have e2 : toChars "am" = ['a', 'm'] := rfl
  unfold stripAmPm
  rw [e1, e2, suffix2_false_lastne base hb hdm, suffix2_false_lastne base hb hdm,
    suffix1_false_lastne base hb hdp, suffix1_false_lastne base hb hda]
  simp

theorem pstHourMin_colon_none {dh x : List Char} {h : Nat}
    (hdh : parseU32 dh = some h) (hx : parseU32 x = none)
    (hcdh : ':' ∉ dh) (hcx : ':' ∉ x) :
    pstHourMin (dh ++ ':' :: x) = some (h, 0) := by
  unfold pstHourMin
  rw [contains_of_mem (by simp : ':' ∈ dh ++ ':' :: x), if_pos rfl,
    splitOn_sep_head _ hcdh, splitOn_no_sep hcx, List.headD_cons,
    show (dh :: [x])[1]? = some x from rfl, Option.some_bind, hx,
    Option.getD_none, hdh]

theorem pstHourMin_two_colons {dh dm rest : List Char} {h m : Nat}
    (hdh : parseU32 dh = some h) (hdm : parseU32 dm = some m)
    (hcdh : ':' ∉ dh) (hcdm : ':' ∉ dm) :
    pstHourMin (dh ++ ':' :: (dm ++ ':' :: rest)) = some (h, m) := by
  unfold pstHourMin
  rw [contains_of_mem (by simp : ':' ∈ dh ++ ':' :: (dm ++ ':' :: rest)), if_pos rfl,
    splitOn_sep_head _ hcdh, splitOn_sep_head _ hcdm,
    List.headD_cons,
    show (dh :: dm :: (rest.splitOn ':'))[1]? = some dm by simp,
    Option.some_bind, hdm, Option.getD_some, hdh]

/-- Counterexample for C10 as stated: `12:ax` has `H = 12 ≤ 23` and the
unparseable minute component `ax`, but the `'a'` inside it triggers the
12am-to-0 rewrite, so the call returns `00:00:00` rather than `12:00:00`. -/
theorem c10_lenient_minutes_counterexample :
    parse_start_time (toChars "12:ax") = some (toChars "00:00:00") ∧
    parse_start_time (toChars "12:ax") ≠ some (toChars "12:00:00") := by
  constructor
  · decide
  · decide

/-- C10 (amended): for inputs `H:x` with `H ≤ 23` where `x` fails to parse as
an unsigned integer and contains no colon, whitespace, uppercase letters or
any of the meridiem letters `a`/`p`/`m`, the unparseable minute silently
defaults to 0 and the call returns `HH:00:00`; likewise digit components after
the minutes (an `:SS` part) are ignored rather than rejected. -/
theorem c10_lenient_minutes_amended :
    (∀ h x, h ≤ 23 → parseU32 x = none →
      (∀ c ∈ x, 33 ≤ c.toNat ∧ (c.toNat < 65 ∨ 90 < c.toNat) ∧
        c ≠ ':' ∧ c ≠ 'a' ∧ c ≠ 'p' ∧ c ≠ 'm') →
      parse_start_time (decimalString h ++ ':' :: x) =
        some (pad2 h ++ ':' :: pad2 0 ++ toChars ":00")) ∧
    (∀ h m rest, h ≤ 23 → m ≤ 59 → rest.all Char.isDigit = true →
      parse_start_time (decimalString h ++ ':' :: (decimalString m ++ ':' :: rest)) =
        some (pad2 h ++ ':' :: pad2 m ++ toChars ":00")) := by
  constructor
  · intro h x hle hx hxin
    obtain ⟨hvH, haH, hneH⟩ := decimalString_spec h
    have hh : h < 2 ^ 32 := by omega
    have hcdh : ':' ∉ decimalString h := not_mem_of_all_digit haH (by decide)
    have hcx : ':' ∉ x := fun hc => (hxin ':' hc).2.2.1 rfl
    have hnorm : toLowerStr (trimChars (decimalString h ++ ':' :: x)) =
        decimalString h ++ ':' :: x := by
      apply normalize_inert
      intro c hc
      simp only [List.mem_append, List.mem_cons] at hc
      rcases hc with hc | hc | hc
      · exact digit_inert (List.all_eq_true.mp haH _ hc)
      · subst hc; decide
      · exact ⟨(hxin c hc).1, (hxin c hc).2.1⟩
    have hne : decimalString h ++ ':' :: x ≠ [] := by
      cases hd : decimalString h with
      | nil => exact absurd hd hneH
      | cons a t => simp
    have hheadDig : ∀ c, (decimalString h ++ ':' :: x).head? = some c →
        isWsChar c = false := by
      intro c hc
      cases hd : decimalString h with
      | nil => exact absurd hd hneH
      | cons a t =>
        rw [hd, List.cons_append, List.head?_cons, Option.some_inj] at hc
        have ha : a.isDigit = true := by
          have := List.all_eq_true.mp haH a (by rw [hd]; exact List.mem_cons_self a t)
          exact this
        exact (digit_props (hc ▸ ha)).2.2.2.2.2.2.2.1
    have hstrip : stripAmPm (decimalString h ++ ':' :: x) =
        (decimalString h ++ ':' :: x, false) := by
      cases hxe : x.reverse with
      | nil =>
        have hxnil : x = [] := by
          have := congrArg List.reverse hxe
          simpa using this
        subst hxnil
        exact stripAmPm_colon _ (decimalString h) rfl
      | cons d t =>
        have hxd : x = t.reverse ++ [d] := by
          have := congrArg List.reverse hxe
          simpa using this
        have hdm : d ∈ x := by rw [hxd]; simp
        apply stripAmPm_lastne (u := decimalString h ++ ':' :: t.reverse) (d := d)
        · rw [hxd]; simp
        · exact (hxin d hdm).2.2.2.1
        · exact (hxin d hdm).2.2.2.2.1
        · exact (hxin d hdm).2.2.2.2.2
    have htp : trimChars (decimalString h ++ ':' :: x) =
        decimalString h ++ ':' :: x := by
      apply trimChars_eq_self hheadDig
      intro c hc
      cases hxe : x.reverse with
      | nil =>
        have hxnil : x = [] := by
          have := congrArg List.reverse hxe
          simpa using this
        subst hxnil
        rw [List.getLast?_concat, Option.some_inj] at hc
        rw [← hc]
        decide
      | cons d t =>
        have hxd : x = t.reverse ++ [d] := by
          have := congrArg List.reverse hxe
          simpa using this
        have hdm : d ∈ x := by rw [hxd]; simp
        have hrw : decimalString h ++ ':' :: x =
            (decimalString h ++ ':' :: t.reverse) ++ [d] := by
          rw [hxd]; simp
        rw [hrw, List.getLast?_concat, Option.some_inj] at hc
        exact isWsChar_eq_false (hc ▸ (hxin d hdm).1)
    have hca : (decimalString h ++ ':' :: x).contains 'a' = false := by
      apply contains_eq_false
      intro hmem
      simp only [List.mem_append, List.mem_cons] at hmem
      rcases hmem with hc | hc | hc
      · exact not_mem_of_all_digit haH (by decide) hc
      · exact absurd hc (by decide)
      · exact (hxin 'a' hc).2.2.2.1 rfl
    have h1 : (stripAmPm (decimalString h ++ ':' :: x)).1 =
        decimalString h ++ ':' :: x := by rw [hstrip]
    have h2 : (stripAmPm (decimalString h ++ ':' :: x)).2 = false := by rw [hstrip]
    have hhm := pstHourMin_colon_none (parseU32_decimalString h hh) hx hcdh hcx
    unfold parse_start_time
    rw [hnorm, if_neg hne, h1, h2]
    unfold pstAfterStrip
    rw [htp, hhm, hca]
    show (if 23 < hour24Of false h false ∨ 59 < 0 then none
      else some (pad2 (hour24Of false h false) ++ ':' :: pad2 0 ++ toChars ":00")) =
      some (pad2 h ++ ':' :: pad2 0 ++ toChars ":00")
    have hv : hour24Of false h false = h := by simp [hour24Of]
    rw [hv, if_neg (show ¬ (23 < h ∨ 59 < 0) by omega)]
  · intro h m rest hle hmle hrest
    obtain ⟨hvH, haH, hneH⟩ := decimalString_spec h
    obtain ⟨hvM, haM, hneM⟩ := decimalString_spec m
    have hh : h < 2 ^ 32 := by omega
    have hm : m < 2 ^ 32 := by omega
    have hcdh : ':' ∉ decimalString h := not_mem_of_all_digit haH (by decide)
    have hcdm : ':' ∉ decimalString m := not_mem_of_all_digit haM (by decide)
    have hnorm : toLowerStr (trimChars (decimalString h ++ ':' ::
        (decimalString m ++ ':' :: rest))) =
        decimalString h ++ ':' :: (decimalString m ++ ':' :: rest) := by
      apply normalize_inert
      intro c hc
      simp only [List.mem_append, List.mem_cons] at hc
      rcases hc with hc | hc | hc | hc | hc
      · exact digit_inert (List.all_eq_true.mp haH _ hc)
      · subst hc; decide
      · exact digit_inert (List.all_eq_true.mp haM _ hc)
      · subst hc; decide
      · exact digit_inert (List.all_eq_true.mp hrest _ hc)
    have hne : decimalString h ++ ':' :: (decimalString m ++ ':' :: rest) ≠ [] := by
      cases hd : decimalString h with
      | nil => exact absurd hd hneH
      | cons a t => simp
    have hstrip : stripAmPm (decimalString h ++ ':' :: (decimalString m ++ ':' :: rest)) =
        (decimalString h ++ ':' :: (decimalString m ++ ':' :: rest), false) := by
      cases hxe : rest.reverse with
      | nil =>
        have hxnil : rest = [] := by
          have := congrArg List.reverse hxe
          simpa using this
        subst hxnil
        apply stripAmPm_colon _ (decimalString h ++ ':' :: decimalString m)
        simp
      | cons d t =>
        have hxd : rest = t.reverse ++ [d] := by
          have := congrArg List.reverse hxe
          simpa using this
        have hdm : d ∈ rest := by rw [hxd]; simp
        apply stripAmPm_digit
          (u := decimalString h ++ ':' :: (decimalString m ++ ':' :: t.reverse)) (d := d)
        · rw [hxd]; simp
        · exact List.all_eq_true.mp hrest _ hdm
    have htp : trimChars (decimalString h ++ ':' :: (decimalString m ++ ':' :: rest)) =
        decimalString h ++ ':' :: (decimalString m ++ ':' :: rest) := by
      apply trimChars_eq_self
      · intro c hc
        cases hd : decimalString h with
        | nil => exact absurd hd hneH
        | cons a t =>
          rw [hd, List.cons_append, List.head?_cons, Option.some_inj] at hc
          have ha : a.isDigit = true := by
            have := List.all_eq_true.mp haH a (by rw [hd]; exact List.mem_cons_self a t)
            exact this
          exact (digit_props (hc ▸ ha)).2.2.2.2.2.2.2.1
      · intro c hc
        cases hxe : rest.reverse with
        | nil =>
          have hxnil : rest = [] := by
            have := congrArg List.reverse hxe
            simpa using this
          subst hxnil
          have hrw : decimalString h ++ ':' :: (decimalString m ++ [':']) =
              (decimalString h ++ ':' :: decimalString m) ++ [':'] := by simp
          rw [hrw, List.getLast?_concat, Option.some_inj] at hc
          rw [← hc]
          decide
        | cons d t =>
          have hxd : rest = t.reverse ++ [d] := by
            have := congrArg List.reverse hxe
            simpa using this
          have hdm : d ∈ rest := by rw [hxd]; simp
          have hrw : decimalString h ++ ':' :: (decimalString m ++ ':' :: rest) =
              (decimalString h ++ ':' :: (decimalString m ++ ':' :: t.reverse)) ++ [d] := by
            rw [hxd]; simp
          rw [hrw, List.getLast?_concat, Option.some_inj] at hc
          exact hc ▸ (digit_props (List.all_eq_true.mp hrest _ hdm)).2.2.2.2.2.2.2.1
    have hca : (decimalString h ++ ':' ::
        (decimalString m ++ ':' :: rest)).contains 'a' = false := by
      apply contains_eq_false
      intro hmem
      simp only [List.mem_append, List.mem_cons] at hmem
      rcases hmem with hc | hc | hc | hc | hc
      · exact not_mem_of_all_digit haH (by decide) hc
      · exact absurd hc (by decide)
      · exact not_mem_of_all_digit haM (by decide) hc
      · exact absurd hc (by decide)
      · exact not_mem_of_all_digit hrest (by decide) hc
    have h1 : (stripAmPm (decimalString h ++ ':' ::
        (decimalString m ++ ':' :: rest))).1 =
        decimalString h ++ ':' :: (decimalString m ++ ':' :: rest) := by rw [hstrip]
    have h2 : (stripAmPm (decimalString h ++ ':' ::
        (decimalString m ++ ':' :: rest))).2 = false := by rw [hstrip]
    have hhm := @pstHourMin_two_colons _ _ rest _ _
      (parseU32_decimalString h hh) (parseU32_decimalString m hm) hcdh hcdm
    unfold parse_start_time
    rw [hnorm, if_neg hne, h1, h2]
    unfold pstAfterStrip
    rw [htp, hhm, hca]
    show (if 23 < hour24Of false h false ∨ 59 < m then none
      else some (pad2 (hour24Of false h false) ++ ':' :: pad2 m ++ toChars ":00")) =
      some (pad2 h ++ ':' :: pad2 m ++ toChars ":00")
    have hv : hour24Of false h false = h := by simp [hour24Of]
    rw [hv, if_neg (show ¬ (23 < h ∨ 59 < m) by omega)]

/-- Witness for C10 (amended) at the inputs `9:xx` and `9:30:45`. -/
theorem c10_lenient_minutes_amended_witness :
    parse_start_time (decimalString 9 ++ ':' :: toChars "xx") =
      some (pad2 9 ++ ':' :: pad2 0 ++ toChars ":00") ∧
    parse_start_time (decimalString 9 ++ ':' :: (decimalString 30 ++ ':' :: toChars "45")) =
      some (pad2 9 ++ ':' :: pad2 30 ++ toChars ":00") := by
  constructor
  · exact c10_lenient_minutes_amended.1 9 (toChars "xx") (by norm_num) (by decide)
      (by decide)
  · exact c10_lenient_minutes_amended.2 9 30 (toChars "45") (by norm_num) (by norm_num)
      (by decide)

/-! ## A model of `f32` arithmetic for `parse_duration`

Rust's `parse::<f32>()` is correctly rounded, and `f32` multiplication rounds
the exact product; both round to 24 significant bits with round-to-nearest,
ties-to-even.  `roundF32` performs exactly that rounding on a nonnegative
rational (exponent range is not clamped: the claims only evaluate magnitudes
far from overflow/underflow, where the saturating `as i64` cast makes the
clamp unobservable). -/

/-- Fuelled floor of the base-2 logarithm. -/
def log2fuel : Nat → Nat → Nat
  | 0, _ => 0
  | fuel + 1, n => if n ≤ 1 then 0 else log2fuel fuel (n / 2) + 1

/-- Floor of the base-2 logarithm of a positive natural. -/
def natLog2 (n : Nat) : Nat := log2fuel n n

/-- The rational `2 ^ k` for an integer exponent. -/
def exp2 (k : Int) : ℚ :=
  if 0 ≤ k then ((2 : ℚ) ^ k.toNat) else 1 / ((2 : ℚ) ^ (-k).toNat)

/-- Floor of the base-2 logarithm of a positive rational. -/
def floorLog2 (q : ℚ) : Int :=
  if q < exp2 ((natLog2 q.num.natAbs : Int) - (natLog2 q.den : Int))
  then (natLog2 q.num.natAbs : Int) - (natLog2 q.den : Int) - 1
  else (natLog2 q.num.natAbs : Int) - (natLog2 q.den : Int)

/-- Round a rational to an integer, half-to-even. -/
def rhe (x : ℚ) : Int :=
  if x - ⌊x⌋ < 1 / 2 then ⌊x⌋
  else if 1 / 2 < x - ⌊x⌋ then ⌊x⌋ + 1
  else if ⌊x⌋ % 2 = 0 then ⌊x⌋ else ⌊x⌋ + 1

/-- Round a positive rational with `2 ^ k ≤ q < 2 ^ (k + 1)` to 24 significant
bits, half-to-even. -/
def roundAt (q : ℚ) (k : Int) : ℚ :=
  if k ≤ 23 then ((rhe (q * 2 ^ (23 - k).toNat) : ℚ) / (2 ^ (23 - k).toNat : ℚ))
  else ((rhe (q / 2 ^ (k - 23).toNat) : ℚ) * ((2 : ℚ) ^ (k - 23).toNat))

/-- IEEE-754 binary32 rounding of a nonnegative rational value. -/
def roundF32 (q : ℚ) : ℚ :=
  if q ≤ 0 then 0 else roundAt q (floorLog2 q)

/-- Characters allowed in a numeric buffer. -/
def digitOrDot (c : Char) : Bool := c.isDigit || c = '.'

/-- Exact rational value of a digits-and-dot buffer. -/
def bufVal (l : List Char) : ℚ :=
  (digitsVal (l.takeWhile (fun c => c ≠ '.')) : ℚ) +
    (digitsVal (l.drop ((l.takeWhile (fun c => c ≠ '.')).length + 1)) : ℚ) /
      ((10 : ℚ) ^ (l.drop ((l.takeWhile (fun c => c ≠ '.')).length + 1)).length)

/-- Rust `str::parse::<f32>()` on the digit/dot buffers `parse_duration`
builds: at most one dot, at least one digit, correctly rounded value. -/
def parseF32 (l : List Char) : Option ℚ :=
  if l.all digitOrDot ∧ l.any Char.isDigit ∧ l.count '.' ≤ 1 then
    some (roundF32 (bufVal l))
  else none

/-- Rust `str::parse::<i64>()` on the unsigned digit buffers reachable here. -/
def parseI64 (l : List Char) : Option Int :=
  if l ≠ [] ∧ l.all Char.isDigit ∧ (digitsVal l : Int) < 2 ^ 63 then
    some (digitsVal l)
  else none

/-- Wrapping 64-bit signed addition result (Rust release-mode `+=`). -/
def wrap64 (x : Int) : Int := (x + 2 ^ 63) % 2 ^ 64 - 2 ^ 63

/-- Truncation of a rational toward zero. -/
def ratTruncToInt (q : ℚ) : Int := if q < 0 then -⌊-q⌋ else ⌊q⌋

/-- Saturation to the `i64` range. -/
def i64sat (x : Int) : Int := max (-(2 ^ 63)) (min (2 ^ 63 - 1) x)

/-- Rust `as i64` on an `f32` value: truncate toward zero, saturating. -/
def f32ToI64 (q : ℚ) : Int := i64sat (ratTruncToInt q)

/-! ## `parse_duration` (src/api/types.rs) -/

/-- The character-scanning loop of `parse_duration`: accumulates a numeric
buffer, converts it on a unit letter (`h`/`m`/`s`), skips whitespace, and
aborts on any other character.  State is `(total_seconds, current_num,
has_unit)`. -/
def durScan : List Char → Int → List Char → Bool → Option (Int × List Char × Bool)
  | [], t, buf, hu => some (t, buf, hu)
  | c :: rest, t, buf, hu =>
    if c.isDigit ∨ c = '.' then durScan rest t (buf ++ [c]) hu
    else if c = 'h' then
      match parseF32 buf with
      | some q => durScan rest (wrap64 (t + f32ToI64 (roundF32 (q * 3600)))) [] true
      | none => durScan rest t [] hu
    else if c = 'm' then
      match parseF32 buf with
      | some q => durScan rest (wrap64 (t + f32ToI64 (roundF32 (q * 60)))) [] true
      | none => durScan rest t [] hu
    else if c = 's' then
      match parseI64 buf with
      | some v => durScan rest (wrap64 (t + v)) [] true
      | none => durScan rest t [] hu
    else if isWsChar c then durScan rest t buf hu
    else none

/-- The trailing-bare-number interpretation of `parse_duration`: a value with
a dot is hours; a bare integer in `[1, 8]` is hours; otherwise minutes. -/
def durFinishVal (buf : List Char) (num : ℚ) : Int :=
  if '.' ∈ buf then f32ToI64 (roundF32 (num * 3600))
  else if 1 ≤ f32ToI64 num ∧ f32ToI64 num ≤ 8 then f32ToI64 num * 3600
  else f32ToI64 (roundF32 (num * 60))

/-- `parse_duration` from `src/api/types.rs`: parse strings like `1h 30m`,
`45m`, `1.5h`, `90` into seconds. -/
def parse_duration (s : List Char) : Option Int :=
  if toLowerStr (trimChars s) = [] then none
  else
    match durScan (toLowerStr (trimChars s)) 0 [] false with
    | none => none
    | some (t, buf, hu) =>
      if buf = [] then (if 0 < t then some t else none)
      else
        match parseF32 buf with
        | none => if 0 < t then some t else none
        | some num =>
          if hu then none
          else if 0 < durFinishVal buf num then some (durFinishVal buf num)
          else none

/-! ## Facts about the binary32 rounding model -/

theorem log2fuel_spec :
    ∀ fuel n, 1 ≤ n → n ≤ fuel →
      2 ^ log2fuel fuel n ≤ n ∧ n < 2 ^ (log2fuel fuel n + 1) := by
  intro fuel
  induction fuel with
  | zero => intro n h1 h2; omega
  | succ f ih =>
    intro n h1 h2
    by_cases hle : n ≤ 1
    · simp only [log2fuel, if_pos hle]
      simp
      omega
    · have h1' : 1 ≤ n / 2 := by omega
      have h2' : n / 2 ≤ f := by omega
      obtain ⟨ha, hb⟩ := ih (n / 2) h1' h2'
      simp only [log2fuel, if_neg hle]
      rw [pow_succ] at hb
      constructor
      · rw [pow_succ]
        omega
      · rw [pow_succ, pow_succ]
        omega

theorem natLog2_spec (n : Nat) (h : 1 ≤ n) :
    2 ^ natLog2 n ≤ n ∧ n < 2 ^ (natLog2 n + 1) :=
  log2fuel_spec n n h le_rfl

theorem exp2_pos (k : Int) : 0 < exp2 k := by
  unfold exp2
  split <;> positivity

theorem exp2_eq_zpow (k : Int) : exp2 k = (2 : ℚ) ^ k := by
  unfold exp2
  split
  next h => rw [← zpow_natCast, Int.toNat_of_nonneg h]
  next h =>
    push_neg at h
    rw [← zpow_natCast, Int.toNat_of_nonneg (by omega : (0 : Int) ≤ -k), one_div,
      ← zpow_neg, neg_neg]

theorem exp2_mono {j k : Int} (h : j ≤ k) : exp2 j ≤ exp2 k := by
  rw [exp2_eq_zpow, exp2_eq_zpow]
  exact zpow_le_zpow_right₀ (by norm_num) h

theorem exp2_nat_sub (x y : Nat) :
    exp2 ((x : Int) - (y : Int)) = (2 ^ x : ℚ) / (2 ^ y : ℚ) := by
  rw [exp2_eq_zpow, zpow_sub₀ (by norm_num : (2 : ℚ) ≠ 0), zpow_natCast, zpow_natCast]

theorem exp2_ofNat (n : Nat) : exp2 (n : Int) = (2 : ℚ) ^ n := by
  rw [exp2_eq_zpow, zpow_natCast]

theorem floorLog2_bracket {q : ℚ} (hq : 0 < q) :
    exp2 (floorLog2 q) ≤ q ∧ q < exp2 (floorLog2 q + 1) := by
  have hnum : 0 < q.num := Rat.num_pos.mpr hq
  have ha1 : 1 ≤ q.num.natAbs := by omega
  have hb1 : 1 ≤ q.den := q.den_pos
  obtain ⟨ha2, ha3⟩ := natLog2_spec _ ha1
  obtain ⟨hb2, hb3⟩ := natLog2_spec _ hb1
  set a := q.num.natAbs with hadef
  set b := q.den with hbdef
  set la := natLog2 a with hladef
  set lb := natLog2 b with hlbdef
  have hq_eq : q = (a : ℚ) / (b : ℚ) := by
    rw [hadef, hbdef]
    rw [Int.cast_natAbs, abs_of_nonneg (by exact_mod_cast le_of_lt hnum)]
    exact (Rat.num_div_den q).symm
  have hbq : (0 : ℚ) < (b : ℚ) := by exact_mod_cast hb1
  have key_low : exp2 ((la : Int) - lb - 1) < q := by
    have hcast : ((la : Int) - lb - 1) = (la : Int) - ((lb + 1 : Nat) : Int) := by
      push_cast
      ring
    rw [hcast, exp2_nat_sub, hq_eq, div_lt_div_iff₀ (by positivity) hbq]
    have hnat : 2 ^ la * b < a * 2 ^ (lb + 1) := by
      calc 2 ^ la * b < 2 ^ la * 2 ^ (lb + 1) :=
            mul_lt_mul_of_pos_left hb3 (by positivity)
        _ ≤ a * 2 ^ (lb + 1) := Nat.mul_le_mul_right _ ha2
    exact_mod_cast hnat
  have key_high : q < exp2 ((la : Int) - lb + 1) := by
    have hcast : ((la : Int) - lb + 1) = ((la + 1 : Nat) : Int) - (lb : Int) := by
      push_cast
      ring
    rw [hcast, exp2_nat_sub, hq_eq, div_lt_div_iff₀ hbq (by positivity)]
    have hnat : a * 2 ^ lb < 2 ^ (la + 1) * b := by
      calc a * 2 ^ lb < 2 ^ (la + 1) * 2 ^ lb :=
            mul_lt_mul_of_pos_right ha3 (by positivity)
        _ ≤ 2 ^ (la + 1) * b := Nat.mul_le_mul_left _ hb2
    exact_mod_cast hnat
  unfold floorLog2
  rw [← hadef, ← hbdef, ← hladef, ← hlbdef]
  by_cases hcase : q < exp2 ((la : Int) - lb)
  · rw [if_pos hcase]
    constructor
    · exact le_of_lt key_low
    · have : (la : Int) - lb - 1 + 1 = (la : Int) - lb := by ring
      rw [this]
      exact hcase
  · rw [if_neg hcase]
    push_neg at hcase
    exact ⟨hcase, key_high⟩

theorem floorLog2_unique {q : ℚ} {k : Int} (hq : 0 < q)
    (h1 : exp2 k ≤ q) (h2 : q < exp2 (k + 1)) : floorLog2 q = k := by
  obtain ⟨b1, b2⟩ := floorLog2_bracket hq
  by_contra hne
  rcases lt_or_gt_of_ne hne with hlt | hgt
  · have := exp2_mono (show floorLog2 q + 1 ≤ k by omega)
    linarith
  · have := exp2_mono (show k + 1 ≤ floorLog2 q by omega)
    linarith

theorem rhe_intCast (n : Int) : rhe ((n : Int) : ℚ) = n := by
  unfold rhe
  rw [Int.floor_intCast]
  rw [if_pos (by norm_num)]

/-- Values of the form `s * 2 ^ t` with `s < 2 ^ 24` are exactly representable
in binary32, so the rounding is the identity on them. -/
theorem roundF32_exact {s t : Nat} (hs : 0 < s) (h24 : s < 2 ^ 24) :
    roundF32 ((s * 2 ^ t : Nat) : ℚ) = ((s * 2 ^ t : Nat) : ℚ) := by
  set m : Nat := s * 2 ^ t with hm
  have hm0 : 0 < m := by positivity
  have hq0 : (0 : ℚ) < (m : ℚ) := by exact_mod_cast hm0
  unfold roundF32
  rw [if_neg (not_le.mpr hq0)]
  obtain ⟨hb1, hb2⟩ := floorLog2_bracket hq0
  set k := floorLog2 ((m : ℕ) : ℚ) with hk
  unfold roundAt
  by_cases hk23 : k ≤ 23
  · rw [if_pos hk23]
    have hint : ((m : ℚ) * 2 ^ (23 - k).toNat) = (((m * 2 ^ (23 - k).toNat : ℕ) : ℤ) : ℚ) := by
      push_cast
      ring
    rw [hint, rhe_intCast]
    push_cast
    rw [mul_div_assoc, div_self (by positivity : ((2 : ℚ) ^ (23 - k).toNat) ≠ 0), mul_one]
  · rw [if_neg hk23]
    push_neg at hk23
    have hk0 : 0 ≤ k := by omega
    have hkk : exp2 k = ((2 ^ k.toNat : ℕ) : ℚ) := by
      unfold exp2
      rw [if_pos hk0]
      push_cast
      rfl
    have hmlow : 2 ^ k.toNat ≤ m := by
      have := hb1
      rw [hkk] at this
      exact_mod_cast this
    have hkt : k.toNat < t + 24 := by
      by_contra hcon
      push_neg at hcon
      have hpow : (2 : ℕ) ^ (t + 24) ≤ 2 ^ k.toNat := Nat.pow_le_pow_right (by norm_num) hcon
      have hmup : m < 2 ^ (t + 24) := by
        have h1 : m < 2 ^ 24 * 2 ^ t := by
          rw [hm]
          exact mul_lt_mul_of_pos_right h24 (by positivity)
        have h2 : (2 : ℕ) ^ 24 * 2 ^ t = 2 ^ (t + 24) := by
          rw [← pow_add]
          congr 1
          omega
        omega
      omega
    have he : (k - 23).toNat ≤ t := by omega
    have hdvd : 2 ^ (k - 23).toNat ∣ m := by
      rw [hm]
      exact Dvd.dvd.mul_left (pow_dvd_pow 2 he) s
    obtain ⟨c, hc⟩ := hdvd
    have hpow_ne : ((2 : ℚ) ^ (k - 23).toNat) ≠ 0 := by positivity
    have hQ : ((m : ℕ) : ℚ) / 2 ^ (k - 23).toNat = ((c : ℕ) : ℚ) := by
      rw [hc]
      push_cast
      rw [mul_comm, mul_div_assoc, div_self hpow_ne, mul_one]
    rw [hQ, show ((c : ℕ) : ℚ) = (((c : ℕ) : ℤ) : ℚ) from by push_cast; rfl, rhe_intCast]
    push_cast
    rw [← hQ]
    rw [div_mul_cancel₀ _ hpow_ne]

theorem roundF32_natCast_exact {n : Nat} (h0 : 0 < n) (h24 : n < 2 ^ 24) :
    roundF32 ((n : ℕ) : ℚ) = ((n : ℕ) : ℚ) := by
  have := roundF32_exact (t := 0) h0 h24
  simpa using this

theorem f32ToI64_natCast {m : Nat} (h : (m : Int) < 2 ^ 63) :
    f32ToI64 ((m : ℕ) : ℚ) = (m : Int) := by
  unfold f32ToI64 ratTruncToInt i64sat
  rw [if_neg (not_lt.mpr (by positivity)), Int.floor_natCast]
  omega

/-! ## Evaluating `parse_duration` on bare numeric inputs -/

theorem durScan_digits {cs : List Char} (h : cs.all digitOrDot = true) :
    ∀ t buf hu, durScan cs t buf hu = some (t, buf ++ cs, hu) := by
  induction cs with
  | nil =>
    intro t buf hu
    simp [durScan]
  | cons c rest ih =>
    intro t buf hu
    rw [List.all_cons, Bool.and_eq_true] at h
    have hc : c.isDigit ∨ c = '.' := by
      have := h.1
      unfold digitOrDot at this
      rw [Bool.or_eq_true, decide_eq_true_iff] at this
      exact this.imp id id
    simp only [durScan, if_pos hc]
    rw [ih h.2]
    simp

theorem takeWhile_all_digits {l : List Char} (h : l.all Char.isDigit = true) :
    l.takeWhile (fun c => c ≠ '.') = l := by
  induction l with
  | nil => rfl
  | cons c rest ih =>
    rw [List.all_cons, Bool.and_eq_true] at h
    have hcd : c ≠ '.' := (digit_props h.1).2.2.2.2.1
    rw [List.takeWhile_cons, if_pos (by simpa using hcd), ih h.2]

theorem bufVal_digits {l : List Char} (h : l.all Char.isDigit = true) :
    bufVal l = ((digitsVal l : ℕ) : ℚ) := by
  unfold bufVal
  rw [takeWhile_all_digits h, List.drop_eq_nil_of_le (by omega)]
  simp [digitsVal]

theorem parseF32_digits {l : List Char} (hne : l ≠ []) (h : l.all Char.isDigit = true) :
    parseF32 l = some (roundF32 ((digitsVal l : ℕ) : ℚ)) := by
  unfold parseF32
  rw [if_pos, bufVal_digits h]
  refine ⟨?_, ?_, ?_⟩
  · rw [List.all_eq_true] at h ⊢
    intro c hc
    unfold digitOrDot
    rw [h c hc]
    rfl
  · cases l with
    | nil => exact absurd rfl hne
    | cons c rest =>
      rw [List.all_cons, Bool.and_eq_true] at h
      rw [List.any_cons, h.1]
      rfl
  · have : '.' ∉ l := not_mem_of_all_digit h (by decide)
    rw [List.count_eq_zero.mpr this]
    omega

/-- Padded inputs: surrounding whitespace is trimmed and the middle is
untouched by lowercasing when its characters are inert. -/
theorem normalized_padded {wsl wsr mid : List Char} (hne : mid ≠ [])
    (hl : ∀ c ∈ wsl, isWsChar c = true) (hr : ∀ c ∈ wsr, isWsChar c = true)
    (hmid : ∀ c ∈ mid, 33 ≤ c.toNat ∧ (c.toNat < 65 ∨ 90 < c.toNat)) :
    toLowerStr (trimChars (wsl ++ mid ++ wsr)) = mid := by
  have h1 : trimChars (wsl ++ mid ++ wsr) = mid := by
    unfold trimChars
    have hstart : trimStart (wsl ++ mid ++ wsr) = mid ++ wsr := by
      unfold trimStart
      rw [List.append_assoc, List.dropWhile_append_of_pos hl]
      cases mid with
      | nil => exact absurd rfl hne
      | cons c rest =>
        rw [List.cons_append, List.dropWhile_cons_of_neg]
        rw [isWsChar_eq_false (hmid c (List.mem_cons_self c rest)).1]
        exact Bool.false_ne_true
    rw [hstart]
    unfold trimEnd
    rw [List.reverse_append, List.dropWhile_append_of_pos
      (fun a ha => hr a (List.mem_reverse.mp ha))]
    cases hmr : mid.reverse with
    | nil =>
      have : mid = [] := by
        have := congrArg List.reverse hmr
        simpa using this
      exact absurd this hne
    | cons c rest =>
      have hcl : c ∈ mid := by
        have : c ∈ mid.reverse := by rw [hmr]; exact List.mem_cons_self c rest
        exact List.mem_reverse.mp this
      rw [List.dropWhile_cons_of_neg, ← hmr, List.reverse_reverse]
      rw [isWsChar_eq_false (hmid c hcl).1]
      exact Bool.false_ne_true
  rw [h1]
  exact toLowerStr_eq_self (fun c hc => toLowerChar_eq_self (hmid c hc).2)

theorem digitOrDot_inert {c : Char} (h : digitOrDot c = true) :
    33 ≤ c.toNat ∧ (c.toNat < 65 ∨ 90 < c.toNat) := by
  unfold digitOrDot at h
  rw [Bool.or_eq_true, decide_eq_true_iff] at h
  rcases h with h | h
  · exact digit_inert h
  · subst h
    decide

/-- Evaluation of `parse_duration` on a whitespace-padded bare numeric buffer
(no unit letters): the scan accumulates the whole buffer and the trailing
bare-number interpretation decides the result. -/
theorem parse_duration_bare_eval {mid : List Char} (hne : mid ≠ [])
    (hdod : mid.all digitOrDot = true) (wsl wsr : List Char)
    (hl : ∀ c ∈ wsl, isWsChar c = true) (hr : ∀ c ∈ wsr, isWsChar c = true) :
    parse_duration (wsl ++ mid ++ wsr) =
      (match parseF32 mid with
       | none => none
       | some num =>
         if 0 < durFinishVal mid num then some (durFinishVal mid num) else none) := by
  have hnorm : toLowerStr (trimChars (wsl ++ mid ++ wsr)) = mid :=
    normalized_padded hne hl hr
      (fun c hc => digitOrDot_inert (List.all_eq_true.mp hdod c hc))
  unfold parse_duration
  rw [hnorm, if_neg hne, durScan_digits hdod 0 [] false]
  show (if mid = [] then (if (0 : Int) < 0 then some 0 else none)
    else match parseF32 mid with
      | none => if (0 : Int) < 0 then some 0 else none
      | some num =>
        if false = true then none
        else if 0 < durFinishVal mid num then some (durFinishVal mid num)
        else none) = _
  rw [if_neg hne]
  cases hp : parseF32 mid with
  | none => simp
  | some num => simp

/-! ## C5: bare numbers in `parse_duration` -/

/-- C5 (amended): a whitespace-padded bare integer `n` with `1 ≤ n ≤ 8` parses
as `n` hours (`n * 3600` seconds); with `9 ≤ n ≤ 1118481` it parses as `n`
minutes (`n * 60` seconds) — the upper bound marks the range on which the
`f32` arithmetic the code uses is exact; and a bare dotted number whose value
`v` and product `v * 3600` are exactly representable in `f32` parses as
`⌊v * 3600⌋` seconds (that many hours, truncated to whole seconds). -/
theorem c5_parse_duration_bare_amended :
    (∀ n : Nat, ∀ wsl wsr : List Char, 1 ≤ n → n ≤ 8 →
      (∀ c ∈ wsl, isWsChar c = true) → (∀ c ∈ wsr, isWsChar c = true) →
      parse_duration (wsl ++ decimalString n ++ wsr) = some ((n : Int) * 3600)) ∧
    (∀ n : Nat, ∀ wsl wsr : List Char, 9 ≤ n → n ≤ 1118481 →
      (∀ c ∈ wsl, isWsChar c = true) → (∀ c ∈ wsr, isWsChar c = true) →
      parse_duration (wsl ++ decimalString n ++ wsr) = some ((n : Int) * 60)) ∧
    (∀ b : List Char, b.all digitOrDot = true → b.any Char.isDigit = true →
      b.count '.' ≤ 1 → '.' ∈ b →
      roundF32 (bufVal b) = bufVal b → roundF32 (bufVal b * 3600) = bufVal b * 3600 →
      1 ≤ bufVal b * 3600 → bufVal b * 3600 < 2 ^ 63 →
      parse_duration b = some ⌊bufVal b * 3600⌋) := by
  refine ⟨?_, ?_, ?_⟩
  · intro n wsl wsr h1 h8 hl hr
    obtain ⟨hv, ha, hne⟩ := decimalString_spec n
    have hdod : (decimalString n).all digitOrDot = true := by
      rw [List.all_eq_true] at ha ⊢
      intro c hc
      unfold digitOrDot
      rw [ha c hc]
      rfl
    rw [parse_duration_bare_eval hne hdod wsl wsr hl hr,
      parseF32_digits hne ha, hv, roundF32_natCast_exact (by omega) (by omega)]
    have hfin : durFinishVal (decimalString n) ((n : ℕ) : ℚ) = (n : Int) * 3600 := by
      unfold durFinishVal
      rw [if_neg (not_mem_of_all_digit (c := '.') ha (by decide)),
        f32ToI64_natCast (by exact_mod_cast lt_of_le_of_lt h8 (by norm_num)),
        if_pos ⟨by exact_mod_cast h1, by exact_mod_cast h8⟩]
    show (if 0 < durFinishVal (decimalString n) ((n : ℕ) : ℚ)
        then some (durFinishVal (decimalString n) ((n : ℕ) : ℚ)) else none) =
      some ((n : Int) * 3600)
    rw [hfin, if_pos (by
      have hn : (1 : Int) ≤ (n : Int) := by exact_mod_cast h1
      omega)]
  · intro n wsl wsr h9 hbig hl hr
    obtain ⟨hv, ha, hne⟩ := decimalString_spec n
    have hdod : (decimalString n).all digitOrDot = true := by
      rw [List.all_eq_true] at ha ⊢
      intro c hc
      unfold digitOrDot
      rw [ha c hc]
      rfl
    rw [parse_duration_bare_eval hne hdod wsl wsr hl hr,
      parseF32_digits hne ha, hv, roundF32_natCast_exact (by omega) (by omega)]
    have hfin : durFinishVal (decimalString n) ((n : ℕ) : ℚ) = (n : Int) * 60 := by
      unfold durFinishVal
      rw [if_neg (not_mem_of_all_digit (c := '.') ha (by decide)),
        f32ToI64_natCast (by exact_mod_cast lt_of_le_of_lt hbig (by norm_num))]
      rw [if_neg (by
        rintro ⟨-, hcon⟩
        have h9i : (9 : Int) ≤ (n : Int) := by exact_mod_cast h9
        omega)]
      have h60 : ((n : ℕ) : ℚ) * 60 = ((15 * n * 2 ^ 2 : ℕ) : ℚ) := by
        push_cast
        ring
      have h15 : 15 * n < 2 ^ 24 := by omega
      rw [h60, roundF32_exact (by omega) h15,
        f32ToI64_natCast (by exact_mod_cast (by omega : 15 * n * 2 ^ 2 < 2 ^ 63))]
      push_cast
      ring
    show (if 0 < durFinishVal (decimalString n) ((n : ℕ) : ℚ)
        then some (durFinishVal (decimalString n) ((n : ℕ) : ℚ)) else none) =
      some ((n : Int) * 60)
    rw [hfin, if_pos (by
      have h9i : (9 : Int) ≤ (n : Int) := by exact_mod_cast h9
      omega)]
  · intro b hdod hany hcount hdot hx1 hx2 hx3 hx4
    have hne : b ≠ [] := by
      intro hb
      rw [hb] at hany
      simp at hany
    have heval := parse_duration_bare_eval hne hdod [] [] (by simp) (by simp)
    simp only [List.nil_append, List.append_nil] at heval
    rw [heval]
    unfold parseF32
    rw [if_pos ⟨hdod, hany, hcount⟩, hx1]
    have hfin : durFinishVal b (bufVal b) = ⌊bufVal b * 3600⌋ := by
      unfold durFinishVal
      rw [if_pos hdot, hx2]
      unfold f32ToI64 ratTruncToInt i64sat
      rw [if_neg (not_lt.mpr (by linarith))]
      have hle := Int.floor_le (bufVal b * 3600)
      have hup : ⌊bufVal b * 3600⌋ < 2 ^ 63 := by
        by_contra hcon
        push_neg at hcon
        have hc2 : ((2 : ℚ) ^ 63) ≤ (⌊bufVal b * 3600⌋ : ℚ) := by exact_mod_cast hcon
        linarith
      have hlow : (0 : Int) ≤ ⌊bufVal b * 3600⌋ := Int.le_floor.mpr (by push_cast; linarith)
      omega
    show (if 0 < durFinishVal b (bufVal b) then some (durFinishVal b (bufVal b)) else none) =
      some ⌊bufVal b * 3600⌋
    rw [hfin, if_pos (by
      have h1 : (1 : Int) ≤ ⌊bufVal b * 3600⌋ := Int.le_floor.mpr (by exact_mod_cast hx3)
      omega)]

theorem exp2_24 : exp2 (24 : Int) = (16777216 : ℚ) := by
  have h := exp2_ofNat 24
  norm_num at h
  exact h

theorem exp2_25 : exp2 (25 : Int) = (33554432 : ℚ) := by
  have h := exp2_ofNat 25
  norm_num at h
  exact h

/-- `16777217 = 2 ^ 24 + 1` is the first integer not representable in `f32`;
round-to-nearest-ties-even sends it to `16777216`. -/
theorem roundF32_16777217 : roundF32 (16777217 : ℚ) = 16777216 := by
  have hfl : floorLog2 (16777217 : ℚ) = 24 := by
    apply floorLog2_unique (by norm_num)
    · rw [exp2_24]
      norm_num
    · rw [show ((24 : Int) + 1) = 25 by norm_num, exp2_25]
      norm_num
  unfold roundF32
  rw [if_neg (by norm_num), hfl]
  unfold roundAt
  rw [if_neg (by norm_num)]
  have h1 : ((24 : Int) - 23).toNat = 1 := by decide
  rw [h1]
  have hfl2 : ⌊(16777217 : ℚ) / 2 ^ 1⌋ = 8388608 := by
    rw [Int.floor_eq_iff]
    constructor <;> norm_num
  have hval : rhe ((16777217 : ℚ) / 2 ^ 1) = 8388608 := by
    unfold rhe
    rw [hfl2, if_neg (by push_cast; norm_num), if_neg (by push_cast; norm_num),
      if_pos (by decide)]
  rw [hval]
  push_cast
  norm_num

/-- C5 counterexample: the bare integer `16777217` (which is at least 9, so the
claim says it is treated as minutes, i.e. `16777217 * 60 = 1006633020` seconds)
actually yields `1006632960` seconds, because the code routes the value through
`f32`, which rounds `16777217` down to `16777216` before multiplying by 60. -/
theorem c5_parse_duration_bare_counterexample :
    parse_duration (toChars "16777217") = some 1006632960 ∧
    parse_duration (toChars "16777217") ≠ some ((16777217 : Int) * 60) := by
  have hne : (toChars "16777217") ≠ [] := by decide
  have ha : (toChars "16777217").all Char.isDigit = true := by decide
  have hdod : (toChars "16777217").all digitOrDot = true := by decide
  have hv : digitsVal (toChars "16777217") = 16777217 := by decide
  have heval0 := parse_duration_bare_eval hne hdod [] [] (by simp) (by simp)
  simp only [List.nil_append, List.append_nil] at heval0
  have heval : parse_duration (toChars "16777217") = some 1006632960 := by
    rw [heval0, parseF32_digits hne ha, hv,
      show ((16777217 : ℕ) : ℚ) = (16777217 : ℚ) by norm_num, roundF32_16777217]
    have hfi : f32ToI64 (16777216 : ℚ) = 16777216 := by
      rw [show (16777216 : ℚ) = ((16777216 : ℕ) : ℚ) by norm_num]
      rw [f32ToI64_natCast (by norm_num)]
      norm_num
    have hfin : durFinishVal (toChars "16777217") (16777216 : ℚ) = 1006632960 := by
      unfold durFinishVal
      rw [if_neg (by decide), hfi, if_neg (by norm_num)]
      rw [show (16777216 : ℚ) * 60 = ((15728640 * 2 ^ 6 : ℕ) : ℚ) by norm_num,
        roundF32_exact (by norm_num) (by norm_num),
        f32ToI64_natCast (by norm_num)]
      norm_num
    show (if 0 < durFinishVal (toChars "16777217") (16777216 : ℚ)
        then some (durFinishVal (toChars "16777217") (16777216 : ℚ)) else none) =
      some 1006632960
    rw [hfin, if_pos (by norm_num)]
  refine ⟨heval, ?_⟩
  rw [heval]
  intro hcon
  rw [Option.some_inj] at hcon
  norm_num at hcon

/-- Witness instances for the amended C5 statement: `2` parses as 2 hours,
`90` as 90 minutes, and `8.0` as 8 hours. -/
theorem c5_parse_duration_bare_amended_witness :
    parse_duration (toChars "2") = some 7200 ∧
    parse_duration (toChars "90") = some 5400 ∧
    parse_duration (toChars "8.0") = some 28800 := by
  refine ⟨?_, ?_, ?_⟩
  · have h := c5_parse_duration_bare_amended.1 2 [] [] (by norm_num) (by norm_num)
      (fun c hc => absurd hc (List.not_mem_nil c))
      (fun c hc => absurd hc (List.not_mem_nil c))
    rw [show ([] : List Char) ++ decimalString 2 ++ [] = toChars "2" by decide] at h
    rw [h]
    norm_num
  · have h := c5_parse_duration_bare_amended.2.1 90 [] [] (by norm_num) (by norm_num)
      (fun c hc => absurd hc (List.not_mem_nil c))
      (fun c hc => absurd hc (List.not_mem_nil c))
    rw [show ([] : List Char) ++ decimalString 90 ++ [] = toChars "90" by decide] at h
    rw [h]
    norm_num
  · have hb : bufVal (toChars "8.0") = 8 := by
      unfold bufVal
      rw [show (toChars "8.0").takeWhile (fun c => c ≠ '.') = ['8'] by decide]
      rw [show (toChars "8.0").drop (List.length ['8'] + 1) = ['0'] by decide]
      rw [show digitsVal ['8'] = 8 by decide, show digitsVal ['0'] = 0 by decide]
      norm_num
    have hx1 : roundF32 (bufVal (toChars "8.0")) = bufVal (toChars "8.0") := by
      rw [hb, show (8 : ℚ) = ((8 : ℕ) : ℚ) by norm_num]
      exact roundF32_natCast_exact (by norm_num) (by norm_num)
    have hx2 : roundF32 (bufVal (toChars "8.0") * 3600) = bufVal (toChars "8.0") * 3600 := by
      rw [hb, show (8 : ℚ) * 3600 = ((225 * 2 ^ 7 : ℕ) : ℚ) by norm_num]
      exact roundF32_exact (by norm_num) (by norm_num)
    have h := c5_parse_duration_bare_amended.2.2 (toChars "8.0") (by decide) (by decide)
      (by decide) (by decide) hx1 hx2 (by rw [hb]; norm_num) (by rw [hb]; norm_num)
    rw [hb, show ((8 : ℚ) * 3600) = ((28800 : ℤ) : ℚ) by norm_num, Int.floor_intCast] at h
    exact h

/-! ## C6: spec-side segmentation of `parse_duration` input -/

/-- The unit letters recognised by `parse_duration`. -/
def durUnits (c : Char) : Bool := c = 'h' || c = 'm' || c = 's'

/-- Characters allowed in a duration string: digits, dot, whitespace, units. -/
def allowedChar (c : Char) : Bool := c.isDigit || c = '.' || isWsChar c || durUnits c

/-- Split a character list at the unit letters: the list of (segment, unit)
pairs, and the trailing segment after the last unit. -/
def segmentsAux : List Char → List Char → List (List Char × Char) × List Char
  | [], acc => ([], acc)
  | c :: rest, acc =>
    if durUnits c then
      ((acc, c) :: (segmentsAux rest []).1, (segmentsAux rest []).2)
    else segmentsAux rest (acc ++ [c])

/-- Seconds contributed by one (segment, unit) pair, when its number parses. -/
def segDelta : List Char × Char → Option Int
  | (seg, u) =>
    if u = 's' then parseI64 (seg.filter digitOrDot)
    else if u = 'h' then
      (parseF32 (seg.filter digitOrDot)).map (fun q => f32ToI64 (roundF32 (q * 3600)))
    else (parseF32 (seg.filter digitOrDot)).map (fun q => f32ToI64 (roundF32 (q * 60)))

/-- Wrapping accumulation of the parsed segments, starting from `t`. -/
def durTotalFrom (t : Int) : List (List Char × Char) → Int
  | [] => t
  | sg :: rest =>
    match segDelta sg with
    | some d => durTotalFrom (wrap64 (t + d)) rest
    | none => durTotalFrom t rest

/-- The trailing numeric buffer left over by the scan. -/
def durTrailBuf (n : List Char) : List Char := (segmentsAux n []).2.filter digitOrDot

/-- The total accumulated by the explicit unit segments. -/
def durScanTotal (n : List Char) : Int := durTotalFrom 0 (segmentsAux n []).1

/-- Whether some explicit unit was consumed (its number parsed). -/
def durUnitConsumed (n : List Char) : Bool :=
  (segmentsAux n []).1.any (fun sg => (segDelta sg).isSome)

/-- The final accumulated total, spec-side: the trailing bare number, when
present and parseable, replaces the scanned total. -/
def durTotal (n : List Char) : Int :=
  if durTrailBuf n = [] then durScanTotal n
  else
    match parseF32 (durTrailBuf n) with
    | none => durScanTotal n
    | some num => durFinishVal (durTrailBuf n) num

theorem segmentsAux_nil (acc : List Char) : segmentsAux [] acc = ([], acc) := rfl

theorem segmentsAux_cons (c : Char) (rest acc : List Char) :
    segmentsAux (c :: rest) acc =
      if durUnits c then ((acc, c) :: (segmentsAux rest []).1, (segmentsAux rest []).2)
      else segmentsAux rest (acc ++ [c]) := rfl

theorem segDelta_mk (seg : List Char) (u : Char) :
    segDelta (seg, u) =
      if u = 's' then parseI64 (seg.filter digitOrDot)
      else if u = 'h' then
        (parseF32 (seg.filter digitOrDot)).map (fun q => f32ToI64 (roundF32 (q * 3600)))
      else (parseF32 (seg.filter digitOrDot)).map (fun q => f32ToI64 (roundF32 (q * 60))) := rfl

theorem digitOrDot_not_unit {c : Char} (h : digitOrDot c = true) : durUnits c = false := by
  unfold digitOrDot at h
  rw [Bool.or_eq_true, decide_eq_true_iff] at h
  rcases h with h | h
  · obtain ⟨-, -, hm, -, -, hh, hs, -, -⟩ := digit_props h
    unfold durUnits
    simp [hh, hm, hs]
  · subst h
    decide

theorem isWs_not_unit {c : Char} (h : isWsChar c = true) : durUnits c = false := by
  unfold isWsChar at h
  have h2 := of_decide_eq_true h
  rcases h2 with rfl | rfl | rfl | rfl | rfl | rfl <;> decide

theorem isWs_not_digitOrDot {c : Char} (h : isWsChar c = true) : digitOrDot c = false := by
  unfold isWsChar at h
  have h2 := of_decide_eq_true h
  rcases h2 with rfl | rfl | rfl | rfl | rfl | rfl <;> decide

theorem durScan_allowed :
    ∀ cs : List Char, cs.all allowedChar = true →
    ∀ acc t hu, durScan cs t (acc.filter digitOrDot) hu =
      some (durTotalFrom t (segmentsAux cs acc).1,
        (segmentsAux cs acc).2.filter digitOrDot,
        hu || (segmentsAux cs acc).1.any (fun sg => (segDelta sg).isSome)) := by
  intro cs
  induction cs with
  | nil =>
    intro h acc t hu
    simp [durScan, segmentsAux, durTotalFrom]
  | cons c rest ih =>
    intro h acc t hu
    rw [List.all_cons, Bool.and_eq_true] at h
    have hca := h.1
    unfold allowedChar at hca
    simp only [Bool.or_eq_true, decide_eq_true_iff, or_assoc] at hca
    by_cases hdd : c.isDigit = true ∨ c = '.'
    · have hdob : digitOrDot c = true := by
        unfold digitOrDot
        rcases hdd with h1 | h1 <;> simp [h1]
      have hnu : durUnits c = false := digitOrDot_not_unit hdob
      unfold durScan
      rw [if_pos hdd]
      have hfa : acc.filter digitOrDot ++ [c] = (acc ++ [c]).filter digitOrDot := by
        rw [List.filter_append]
        simp [hdob]
      rw [hfa, ih h.2 (acc ++ [c]) t hu]
      have hseg : segmentsAux (c :: rest) acc = segmentsAux rest (acc ++ [c]) := by
        rw [segmentsAux_cons, if_neg (by simp [hnu])]
      rw [hseg]
    · rcases hca with h1 | h1 | hws | hun
      · exact absurd (Or.inl h1) hdd
      · exact absurd (Or.inr h1) hdd
      · -- whitespace: buffer kept, no segment boundary
        have hnu : durUnits c = false := isWs_not_unit hws
        have hch : c ≠ 'h' := by
          intro he
          subst he
          exact absurd hnu (by decide)
        have hcm : c ≠ 'm' := by
          intro he
          subst he
          exact absurd hnu (by decide)
        have hcs : c ≠ 's' := by
          intro he
          subst he
          exact absurd hnu (by decide)
        unfold durScan
        rw [if_neg hdd, if_neg hch, if_neg hcm, if_neg hcs, if_pos hws]
        have hfa : acc.filter digitOrDot = (acc ++ [c]).filter digitOrDot := by
          rw [List.filter_append]
          simp [isWs_not_digitOrDot hws]
        rw [hfa, ih h.2 (acc ++ [c]) t hu]
        have hseg : segmentsAux (c :: rest) acc = segmentsAux rest (acc ++ [c]) := by
          rw [segmentsAux_cons, if_neg (by simp [hnu])]
        rw [hseg]
      · -- unit letter
        unfold durUnits at hun
        simp only [Bool.or_eq_true, decide_eq_true_iff, or_assoc] at hun
        have hseg : segmentsAux (c :: rest) acc =
            ((acc, c) :: (segmentsAux rest []).1, (segmentsAux rest []).2) := by
          rw [segmentsAux_cons, if_pos (by rcases hun with rfl | rfl | rfl <;> decide)]
        rcases hun with rfl | rfl | rfl
        · unfold durScan
          rw [if_neg hdd, if_pos rfl]
          have hih := ih h.2 []
          simp only [List.filter_nil] at hih
          cases hp : parseF32 (acc.filter digitOrDot) with
          | some q =>
            show durScan rest (wrap64 (t + f32ToI64 (roundF32 (q * 3600)))) [] true = _
            rw [hih (wrap64 (t + f32ToI64 (roundF32 (q * 3600)))) true, hseg]
            have hsd : segDelta (acc, 'h') = some (f32ToI64 (roundF32 (q * 3600))) := by
              rw [segDelta_mk, if_neg (show ¬(('h' : Char) = 's') by decide), if_pos rfl, hp]
              rfl
            simp [durTotalFrom, hsd, segmentsAux]
          | none =>
            show durScan rest t [] hu = _
            rw [hih t hu, hseg]
            have hsd : segDelta (acc, 'h') = none := by
              rw [segDelta_mk, if_neg (show ¬(('h' : Char) = 's') by decide), if_pos rfl, hp]
              rfl
            simp [durTotalFrom, hsd, segmentsAux]
        · unfold durScan
          rw [if_neg hdd, if_neg (show ¬(('m' : Char) = 'h') by decide), if_pos rfl]
          have hih := ih h.2 []
          simp only [List.filter_nil] at hih
          cases hp : parseF32 (acc.filter digitOrDot) with
          | some q =>
            show durScan rest (wrap64 (t + f32ToI64 (roundF32 (q * 60)))) [] true = _
            rw [hih (wrap64 (t + f32ToI64 (roundF32 (q * 60)))) true, hseg]
            have hsd : segDelta (acc, 'm') = some (f32ToI64 (roundF32 (q * 60))) := by
              rw [segDelta_mk, if_neg (show ¬(('m' : Char) = 's') by decide),
                if_neg (show ¬(('m' : Char) = 'h') by decide), hp]
              rfl
            simp [durTotalFrom, hsd, segmentsAux]
          | none =>
            show durScan rest t [] hu = _
            rw [hih t hu, hseg]
            have hsd : segDelta (acc, 'm') = none := by
              rw [segDelta_mk, if_neg (show ¬(('m' : Char) = 's') by decide),
                if_neg (show ¬(('m' : Char) = 'h') by decide), hp]
              rfl
            simp [durTotalFrom, hsd, segmentsAux]
        · unfold durScan
          rw [if_neg hdd, if_neg (show ¬(('s' : Char) = 'h') by decide),
            if_neg (show ¬(('s' : Char) = 'm') by decide), if_pos rfl]
          have hih := ih h.2 []
          simp only [List.filter_nil] at hih
          cases hp : parseI64 (acc.filter digitOrDot) with
          | some v =>
            show durScan rest (wrap64 (t + v)) [] true = _
            rw [hih (wrap64 (t + v)) true, hseg]
            have hsd : segDelta (acc, 's') = some v := by
              rw [segDelta_mk, if_pos rfl, hp]
            simp [durTotalFrom, hsd, segmentsAux]
          | none =>
            show durScan rest t [] hu = _
            rw [hih t hu, hseg]
            have hsd : segDelta (acc, 's') = none := by
              rw [segDelta_mk, if_pos rfl, hp]
            simp [durTotalFrom, hsd, segmentsAux]

theorem durScan_invalid :
    ∀ cs : List Char, ¬(cs.all allowedChar = true) →
    ∀ t buf hu, durScan cs t buf hu = none := by
  intro cs
  induction cs with
  | nil =>
    intro h
    exact absurd rfl h
  | cons c rest ih =>
    intro h t buf hu
    rw [List.all_cons] at h
    by_cases hca : allowedChar c = true
    · have hrest : ¬(rest.all allowedChar = true) := by
        intro hr
        exact h (by rw [hca, hr]; rfl)
      unfold durScan
      by_cases hdd : c.isDigit = true ∨ c = '.'
      · rw [if_pos hdd]
        exact ih hrest _ _ _
      · rw [if_neg hdd]
        by_cases hch : c = 'h'
        · rw [if_pos hch]
          cases hp : parseF32 buf with
          | some q => exact ih hrest _ _ _
          | none => exact ih hrest _ _ _
        · rw [if_neg hch]
          by_cases hcm : c = 'm'
          · rw [if_pos hcm]
            cases hp : parseF32 buf with
            | some q => exact ih hrest _ _ _
            | none => exact ih hrest _ _ _
          · rw [if_neg hcm]
            by_cases hcs : c = 's'
            · rw [if_pos hcs]
              cases hp : parseI64 buf with
              | some v => exact ih hrest _ _ _
              | none => exact ih hrest _ _ _
            · rw [if_neg hcs]
              by_cases hws : isWsChar c = true
              · rw [if_pos hws]
                exact ih hrest _ _ _
              · rw [if_neg hws]
    · have hcaf : allowedChar c = false := by
        rwa [Bool.not_eq_true] at hca
      unfold allowedChar at hcaf
      simp only [Bool.or_eq_false_iff, decide_eq_false_iff_not, and_assoc] at hcaf
      obtain ⟨hd1, hd2, hd3, hd4⟩ := hcaf
      have hch : c ≠ 'h' := by
        intro he
        subst he
        exact absurd hd4 (by decide)
      have hcm : c ≠ 'm' := by
        intro he
        subst he
        exact absurd hd4 (by decide)
      have hcs : c ≠ 's' := by
        intro he
        subst he
        exact absurd hd4 (by decide)
      have hnd : ¬(c.isDigit = true ∨ c = '.') := by
        rintro (hx | hx)
        · rw [hd1] at hx
          exact Bool.false_ne_true hx
        · exact hd2 hx
      unfold durScan
      rw [if_neg hnd, if_neg hch, if_neg hcm, if_neg hcs, if_neg (by simp [hd3])]

/-- Evaluation of `parse_duration` when every (normalized) character is
allowed: the scan succeeds and the result is decided by the trailing buffer,
the scanned total and the unit-consumed flag. -/
theorem parse_duration_allowed_eval {s n : List Char}
    (hn : toLowerStr (trimChars s) = n) (hne : n ≠ [])
    (hall : n.all allowedChar = true) :
    parse_duration s =
      (if durTrailBuf n = [] then
        (if 0 < durScanTotal n then some (durScanTotal n) else none)
       else
        match parseF32 (durTrailBuf n) with
        | none => if 0 < durScanTotal n then some (durScanTotal n) else none
        | some num =>
          if durUnitConsumed n = true then none
          else if 0 < durFinishVal (durTrailBuf n) num then
            some (durFinishVal (durTrailBuf n) num)
          else none) := by
  unfold parse_duration
  rw [hn, if_neg hne]
  have hscan := durScan_allowed n hall [] 0 false
  simp only [List.filter_nil, Bool.false_or] at hscan
  rw [hscan]
  rfl

/-- C6 (amended): over the trimmed, lowercased input, `parse_duration` returns
`none` exactly when some character is outside digits/dot/whitespace/`h`/`m`/`s`,
or a parseable trailing unit-less number follows an already-consumed explicit
unit, or the final accumulated total is not strictly positive. -/
theorem c6_parse_duration_none_iff (s : List Char) :
    parse_duration s = none ↔
      ((toLowerStr (trimChars s)).all allowedChar = false ∨
       (durTrailBuf (toLowerStr (trimChars s)) ≠ [] ∧
         (parseF32 (durTrailBuf (toLowerStr (trimChars s)))).isSome = true ∧
         durUnitConsumed (toLowerStr (trimChars s)) = true) ∨
       durTotal (toLowerStr (trimChars s)) ≤ 0) := by
  by_cases hne : toLowerStr (trimChars s) = []
  · have hlhs : parse_duration s = none := by
      unfold parse_duration
      rw [if_pos hne]
    have hrhs : durTotal (toLowerStr (trimChars s)) ≤ 0 := by
      rw [hne]
      decide
    rw [hlhs]
    exact ⟨fun _ => Or.inr (Or.inr hrhs), fun _ => rfl⟩
  · by_cases hall : (toLowerStr (trimChars s)).all allowedChar = true
    · rw [parse_duration_allowed_eval rfl hne hall]
      by_cases hb : durTrailBuf (toLowerStr (trimChars s)) = []
      · rw [if_pos hb]
        have htot : durTotal (toLowerStr (trimChars s)) =
            durScanTotal (toLowerStr (trimChars s)) := by
          unfold durTotal
          rw [if_pos hb]
        rw [htot]
        by_cases ht : 0 < durScanTotal (toLowerStr (trimChars s))
        · rw [if_pos ht]
          constructor
          · intro hc
            exact absurd hc (by simp)
          · rintro (h1 | ⟨h2, -, -⟩ | h3)
            · rw [hall] at h1
              exact absurd h1 (by decide)
            · exact absurd hb h2
            · omega
        · rw [if_neg ht]
          exact ⟨fun _ => Or.inr (Or.inr (by omega)), fun _ => rfl⟩
      · rw [if_neg hb]
        cases hp : parseF32 (durTrailBuf (toLowerStr (trimChars s))) with
        | none =>
          show (if 0 < durScanTotal (toLowerStr (trimChars s))
              then some (durScanTotal (toLowerStr (trimChars s))) else none) = none ↔ _
          have htot : durTotal (toLowerStr (trimChars s)) =
              durScanTotal (toLowerStr (trimChars s)) := by
            unfold durTotal
            rw [if_neg hb, hp]
          rw [htot]
          by_cases ht : 0 < durScanTotal (toLowerStr (trimChars s))
          · rw [if_pos ht]
            constructor
            · intro hc
              exact absurd hc (by simp)
            · rintro (h1 | ⟨-, h2, -⟩ | h3)
              · rw [hall] at h1
                exact absurd h1 (by decide)
              · exact absurd h2 (by decide)
              · omega
          · rw [if_neg ht]
            exact ⟨fun _ => Or.inr (Or.inr (by omega)), fun _ => rfl⟩
        | some num =>
          show (if durUnitConsumed (toLowerStr (trimChars s)) = true then none
            else if 0 < durFinishVal (durTrailBuf (toLowerStr (trimChars s))) num then
              some (durFinishVal (durTrailBuf (toLowerStr (trimChars s))) num)
            else none) = none ↔ _
          have htot : durTotal (toLowerStr (trimChars s)) =
              durFinishVal (durTrailBuf (toLowerStr (trimChars s))) num := by
            unfold durTotal
            rw [if_neg hb, hp]
          rw [htot]
          by_cases hu : durUnitConsumed (toLowerStr (trimChars s)) = true
          · rw [if_pos hu]
            exact ⟨fun _ => Or.inr (Or.inl ⟨hb, rfl, hu⟩), fun _ => rfl⟩
          · rw [if_neg hu]
            by_cases ht : 0 < durFinishVal (durTrailBuf (toLowerStr (trimChars s))) num
            · rw [if_pos ht]
              constructor
              · intro hc
                exact absurd hc (by simp)
              · rintro (h1 | ⟨-, -, h3⟩ | h4)
                · rw [hall] at h1
                  exact absurd h1 (by decide)
                · exact absurd h3 hu
                · omega
            · rw [if_neg ht]
              exact ⟨fun _ => Or.inr (Or.inr (by omega)), fun _ => rfl⟩
    · have hlhs : parse_duration s = none := by
        unfold parse_duration
        rw [if_neg hne, durScan_invalid _ hall 0 [] false]
      rw [hlhs]
      rw [Bool.not_eq_true] at hall
      exact ⟨fun _ => Or.inl hall, fun _ => rfl⟩

/-- C6 counterexample: `"1H"` contains `'H'`, which is none of digit, dot,
whitespace or the unit letters `h`/`m`/`s`, yet `parse_duration` accepts it
(returning 3600 seconds) because the input is lowercased first. -/
theorem c6_invalid_char_counterexample :
    parse_duration (toChars "1H") = some 3600 ∧
    'H' ∈ toChars "1H" ∧ allowedChar 'H' = false := by
  refine ⟨?_, by decide, by decide⟩
  have hn : toLowerStr (trimChars (toChars "1H")) = ['1', 'h'] := by decide
  rw [parse_duration_allowed_eval hn (by decide) (by decide)]
  have hb : durTrailBuf ['1', 'h'] = [] := by decide
  rw [if_pos hb]
  have hpf : parseF32 ['1'] = some 1 := by
    rw [parseF32_digits (by decide) (by decide), show digitsVal ['1'] = 1 by decide,
      roundF32_natCast_exact (by norm_num) (by norm_num)]
    norm_num
  have hsd : segDelta (['1'], 'h') = some 3600 := by
    rw [segDelta_mk, if_neg (show ¬(('h' : Char) = 's') by decide), if_pos rfl]
    rw [show List.filter digitOrDot ['1'] = ['1'] by decide, hpf]
    show some (f32ToI64 (roundF32 ((1 : ℚ) * 3600))) = some 3600
    rw [show ((1 : ℚ) * 3600) = ((225 * 2 ^ 4 : ℕ) : ℚ) by norm_num,
      roundF32_exact (by norm_num) (by norm_num), f32ToI64_natCast (by norm_num)]
    norm_num
  have hst : durScanTotal ['1', 'h'] = 3600 := by
    unfold durScanTotal
    rw [show segmentsAux ['1', 'h'] [] = ([(['1'], 'h')], ([] : List Char)) by decide]
    unfold durTotalFrom
    rw [hsd]
    show wrap64 (0 + 3600) = 3600
    decide
  rw [hst]
  norm_num

/-- Witness instance for C6: `"!"` contains a disallowed character, so
`parse_duration` rejects it. -/
theorem c6_parse_duration_none_iff_witness : parse_duration (toChars "!") = none :=
  (c6_parse_duration_none_iff (toChars "!")).mpr (Or.inl (by decide))

/-! ## A model of `serde_json::Value` for the ADF conversions (src/api/types.rs) -/

/-- JSON values, as used by the ADF (Atlassian Document Format) code. -/
inductive Json where
  | null : Json
  | str : List Char → Json
  | num : Int → Json
  | arr : List Json → Json
  | obj : List (List Char × Json) → Json

/-- `Value::get(key)` on an object (`None` on other variants). -/
def jGet : Json → List Char → Option Json
  | Json.obj fields, k => (fields.find? (fun p => p.1 = k)).map (fun p => p.2)
  | _, _ => none

/-- `Value::as_str`. -/
def asStr : Json → Option (List Char)
  | Json.str s => some s
  | _ => none

/-- `Value::as_array`. -/
def asArr : Json → Option (List Json)
  | Json.arr l => some l
  | _ => none

/-- `Value::as_u64` (nonnegative integers only). -/
def asU64 : Json → Option Nat
  | Json.num n => if 0 ≤ n then some n.toNat else none
  | _ => none

/-- `node.get(k).and_then(|v| v.as_str())`. -/
def jGetStr (j : Json) (k : List Char) : Option (List Char) := (jGet j k).bind asStr

/-- `node.get("type").and_then(as_str).unwrap_or("")`. -/
def nodeType (j : Json) : List Char := (jGetStr j (toChars "type")).getD []

/-- `node.get("content").and_then(as_array)`, with a missing or non-array
content treated as the empty list (the code only ever iterates over it). -/
def contentOf (j : Json) : List Json :=
  match (jGet j (toChars "content")).bind asArr with
  | some l => l
  | none => []

theorem json_sizeOf_pos (j : Json) : 1 ≤ sizeOf j := by
  cases j <;> simp <;> omega

theorem contentOf_sizeOf_le (j : Json) : sizeOf (contentOf j) ≤ sizeOf j := by
  unfold contentOf
  cases hj : (jGet j (toChars "content")).bind asArr with
  | none =>
    have := json_sizeOf_pos j
    simp
    omega
  | some l =>
    rw [Option.bind_eq_some] at hj
    obtain ⟨v, hv1, hv2⟩ := hj
    have hvarr : v = Json.arr l := by
      cases v <;> simp [asStr, asArr] at hv2
      rw [hv2]
    subst hvarr
    cases j with
    | obj fields =>
      unfold jGet at hv1
      rw [Option.map_eq_some'] at hv1
      obtain ⟨p, hp1, hp2⟩ := hv1
      have hmem : p ∈ fields := List.mem_of_find?_eq_some hp1
      have hps : sizeOf p < sizeOf fields := List.sizeOf_lt_of_mem hmem
      have hp2s : sizeOf p.2 ≤ sizeOf p := by
        cases p with
        | mk a b => simp
      rw [hp2] at hp2s
      simp at hp2s ⊢
      omega
    | null => simp [jGet] at hv1
    | str s => simp [jGet] at hv1
    | num n => simp [jGet] at hv1
    | arr l2 => simp [jGet] at hv1

/-! ## Inline formatting (src/api/types.rs: parse_inline_formatting) -/

/-- `str::find(pattern)`: index of the first occurrence of `pat` in `s`. -/
def firstIdxOf : List Char → List Char → Option Nat
  | s, pat =>
    if s.take pat.length = pat then some 0
    else
      match s with
      | [] => none
      | _ :: rest => (firstIdxOf rest pat).map (fun i => i + 1)

/-- `find_pattern` from src/api/types.rs: anchor at the first occurrence of the
start delimiter, find the first end delimiter after it, reject empty content. -/
def find_pattern (text start_d end_d : List Char) :
    Option (List Char × List Char × List Char) :=
  match firstIdxOf text start_d with
  | none => none
  | some sp =>
    match firstIdxOf (text.drop (sp + start_d.length)) end_d with
    | none => none
    | some ep =>
      if ep = 0 then none
      else some (text.take sp, (text.drop (sp + start_d.length)).take ep,
        (text.drop (sp + start_d.length)).drop (ep + end_d.length))

/-- A `{"type": name}` mark object. -/
def markNode (name : List Char) : Json := Json.obj [(toChars "type", Json.str name)]

/-- A `{"type":"text","text":t}` node, with a `marks` field only when the mark
list is nonempty. -/
def textNode (t : List Char) (marks : List Json) : Json :=
  match marks with
  | [] => Json.obj [(toChars "type", Json.str (toChars "text")), (toChars "text", Json.str t)]
  | _ => Json.obj [(toChars "type", Json.str (toChars "text")), (toChars "text", Json.str t),
      (toChars "marks", Json.arr marks)]

/-- `try_match_inline`: the six patterns in source order. -/
def try_match_inline (text : List Char) :
    Option (List Char × List Char × List Json × List Char) :=
  match find_pattern text (toChars "***") (toChars "***") with
  | some m => some (m.1, m.2.1, [markNode (toChars "strong"), markNode (toChars "em")], m.2.2)
  | none =>
  match find_pattern text (toChars "**") (toChars "**") with
  | some m => some (m.1, m.2.1, [markNode (toChars "strong")], m.2.2)
  | none =>
  match find_pattern text (toChars "~~") (toChars "~~") with
  | some m => some (m.1, m.2.1, [markNode (toChars "strike")], m.2.2)
  | none =>
  match find_pattern text (toChars "`") (toChars "`") with
  | some m => some (m.1, m.2.1, [markNode (toChars "code")], m.2.2)
  | none =>
  match find_pattern text (toChars "*") (toChars "*") with
  | some m => some (m.1, m.2.1, [markNode (toChars "em")], m.2.2)
  | none =>
  match find_pattern text (toChars "_") (toChars "_") with
  | some m => some (m.1, m.2.1, [markNode (toChars "em")], m.2.2)
  | none => none

theorem firstIdxOf_some_le {s pat : List Char} :
    ∀ {i : Nat}, firstIdxOf s pat = some i → i + pat.length ≤ s.length := by
  induction s with
  | nil =>
    intro i h
    unfold firstIdxOf at h
    by_cases hc : (List.take pat.length ([] : List Char)) = pat
    · rw [if_pos hc] at h
      have : pat = [] := by simpa using hc.symm
      rw [Option.some_inj] at h
      subst h
      simp [this]
    · rw [if_neg hc] at h
      exact absurd h (by simp)
  | cons c rest ih =>
    intro i h
    unfold firstIdxOf at h
    by_cases hc : (c :: rest).take pat.length = pat
    · rw [if_pos hc] at h
      rw [Option.some_inj] at h
      subst h
      have := congrArg List.length hc
      rw [List.length_take] at this
      have hle := min_eq_left_iff.mp this
      simpa using hle
    · rw [if_neg hc] at h
      rw [Option.map_eq_some'] at h
      obtain ⟨j, hj, hij⟩ := h
      have := ih hj
      subst hij
      simp
      omega

theorem find_pattern_after_length {text d e : List Char} {b c a : List Char}
    (hd : d ≠ []) (he : e ≠ [])
    (h : find_pattern text d e = some (b, c, a)) : a.length < text.length := by
  unfold find_pattern at h
  split at h
  · exact absurd h (by simp)
  · rename_i sp h1
    split at h
    · exact absurd h (by simp)
    · rename_i ep h2
      split at h
      · exact absurd h (by simp)
      · rename_i hep
        rw [Option.some_inj] at h
        have ha : a = (text.drop (sp + d.length)).drop (ep + e.length) := by
          have := congrArg (fun p => p.2.2) h
          simpa using this.symm
        have hle1 := firstIdxOf_some_le h1
        have hle2 := firstIdxOf_some_le h2
        rw [List.length_drop] at hle2
        have hdl : 1 ≤ d.length := by
          cases d with
          | nil => exact absurd rfl hd
          | cons x xs => simp
        have hel : 1 ≤ e.length := by
          cases e with
          | nil => exact absurd rfl he
          | cons x xs => simp
        rw [ha, List.length_drop, List.length_drop]
        omega

theorem try_match_length {text : List Char} {b c : List Char} {ms : List Json}
    {a : List Char} (h : try_match_inline text = some (b, c, ms, a)) :
    a.length < text.length := by
  unfold try_match_inline at h
  split at h
  · rename_i m h1
    rw [Option.some_inj] at h
    have hm : a = m.2.2 := by
      have := congrArg (fun p => p.2.2.2) h
      simpa using this.symm
    rw [hm]
    exact find_pattern_after_length (by decide) (by decide)
      (show _ = some (m.1, m.2.1, m.2.2) from h1)
  · split at h
    · rename_i m h1
      rw [Option.some_inj] at h
      have hm : a = m.2.2 := by
        have := congrArg (fun p => p.2.2.2) h
        simpa using this.symm
      rw [hm]
      exact find_pattern_after_length (by decide) (by decide)
        (show _ = some (m.1, m.2.1, m.2.2) from h1)
    · split at h
      · rename_i m h1
        rw [Option.some_inj] at h
        have hm : a = m.2.2 := by
          have := congrArg (fun p => p.2.2.2) h
          simpa using this.symm
        rw [hm]
        exact find_pattern_after_length (by decide) (by decide)
          (show _ = some (m.1, m.2.1, m.2.2) from h1)
      · split at h
        · rename_i m h1
          rw [Option.some_inj] at h
          have hm : a = m.2.2 := by
            have := congrArg (fun p => p.2.2.2) h
            simpa using this.symm
          rw [hm]
          exact find_pattern_after_length (by decide) (by decide)
            (show _ = some (m.1, m.2.1, m.2.2) from h1)
        · split at h
          · rename_i m h1
            rw [Option.some_inj] at h
            have hm : a = m.2.2 := by
              have := congrArg (fun p => p.2.2.2) h
              simpa using this.symm
            rw [hm]
            exact find_pattern_after_length (by decide) (by decide)
              (show _ = some (m.1, m.2.1, m.2.2) from h1)
          · split at h
            · rename_i m h1
              rw [Option.some_inj] at h
              have hm : a = m.2.2 := by
                have := congrArg (fun p => p.2.2.2) h
                simpa using this.symm
              rw [hm]
              exact find_pattern_after_length (by decide) (by decide)
                (show _ = some (m.1, m.2.1, m.2.2) from h1)
            · exact absurd h (by simp)

/-- The scanning loop of `parse_inline_formatting`. -/
def parseInlineGo (remaining : List Char) : List Json :=
  if remaining = [] then []
  else
    match h : try_match_inline remaining with
    | some (before, content, marks, after) =>
      (if before = [] then [] else [textNode before []]) ++
        textNode content marks :: parseInlineGo after
    | none => [textNode remaining []]
termination_by remaining.length
decreasing_by exact try_match_length h

/-- `parse_inline_formatting` from src/api/types.rs. -/
def parse_inline_formatting (text : List Char) : List Json :=
  if text = [] then [textNode [] []]
  else
    match parseInlineGo text with
    | [] => [textNode [] []]
    | r => r

/-! ## Markdown → ADF blocks (src/api/types.rs) -/

/-- Strip one trailing carriage return (part of `str::lines`). -/
def stripCR (l : List Char) : List Char :=
  if l.getLast? = some '\r' then l.dropLast else l

/-- Rust `str::lines`: split at newlines, dropping a final empty segment and
trailing carriage returns. -/
def toLines (s : List Char) : List (List Char) :=
  if s = [] then []
  else
    (if (s.splitOn '\n').getLast? = some [] then (s.splitOn '\n').dropLast
     else s.splitOn '\n').map stripCR

/-- `is_ordered_list_item`: one or more digits followed by `". "`. -/
def is_ordered_list_item (l : List Char) : Bool :=
  decide (l.takeWhile Char.isDigit ≠ []) &&
    decide ((l.drop (l.takeWhile Char.isDigit).length).take 2 = ['.', ' '])

/-- `create_paragraph`. -/
def create_paragraph (t : List Char) : Json :=
  Json.obj [(toChars "type", Json.str (toChars "paragraph")),
    (toChars "content", Json.arr (parse_inline_formatting t))]

/-- `create_heading`. -/
def create_heading (t : List Char) (level : Nat) : Json :=
  Json.obj [(toChars "type", Json.str (toChars "heading")),
    (toChars "attrs", Json.obj [(toChars "level", Json.num level)]),
    (toChars "content", Json.arr (parse_inline_formatting t))]

/-- `create_code_block` (the `attrs` field is added only for a nonempty
language). -/
def create_code_block (code lang : List Char) : Json :=
  if lang = [] then
    Json.obj [(toChars "type", Json.str (toChars "codeBlock")),
      (toChars "content", Json.arr [Json.obj [(toChars "type", Json.str (toChars "text")),
        (toChars "text", Json.str code)]])]
  else
    Json.obj [(toChars "type", Json.str (toChars "codeBlock")),
      (toChars "content", Json.arr [Json.obj [(toChars "type", Json.str (toChars "text")),
        (toChars "text", Json.str code)]]),
      (toChars "attrs", Json.obj [(toChars "language", Json.str lang)])]

/-- `create_blockquote`: content lines become paragraphs, empty lines dropped. -/
def create_blockquote (t : List Char) : Json :=
  Json.obj [(toChars "type", Json.str (toChars "blockquote")),
    (toChars "content", Json.arr
      (match (toLines t).filter (fun l => l ≠ []) with
       | [] => [create_paragraph []]
       | ps => ps.map create_paragraph))]

/-- `create_list_item`. -/
def create_list_item (t : List Char) : Json :=
  Json.obj [(toChars "type", Json.str (toChars "listItem")),
    (toChars "content", Json.arr [Json.obj [(toChars "type", Json.str (toChars "paragraph")),
      (toChars "content", Json.arr (parse_inline_formatting t))]])]

/-- The item-collecting loop of `parse_bullet_list`: items and consumed count.
The continuation branch tests the already-trimmed line for two leading spaces,
exactly as the source does. -/
def pblAux : List (List Char) → Bool → List Json × Nat
  | [], _ => ([], 0)
  | l :: rest, hasItems =>
    if (trimStart l).take 2 = ['-', ' '] ∨ (trimStart l).take 2 = ['*', ' '] then
      (create_list_item ((trimStart l).drop 2) :: (pblAux rest true).1, (pblAux rest true).2 + 1)
    else if (trimStart l).take 2 = [' ', ' '] ∧ hasItems = true then
      ((pblAux rest hasItems).1, (pblAux rest hasItems).2 + 1)
    else ([], 0)

/-- `parse_bullet_list`: the ADF node and the number of lines consumed. -/
def parse_bullet_list (ls : List (List Char)) : Json × Nat :=
  (Json.obj [(toChars "type", Json.str (toChars "bulletList")),
    (toChars "content", Json.arr (pblAux ls false).1)], (pblAux ls false).2)

/-- The item-collecting loop of `parse_ordered_list`. -/
def polAux : List (List Char) → Bool → List Json × Nat
  | [], _ => ([], 0)
  | l :: rest, hasItems =>
    if is_ordered_list_item (trimStart l) = true then
      match firstIdxOf (trimStart l) ['.', ' '] with
      | some pos =>
        (create_list_item ((trimStart l).drop (pos + 2)) :: (polAux rest true).1,
          (polAux rest true).2 + 1)
      | none => ((polAux rest hasItems).1, (polAux rest hasItems).2 + 1)
    else if (trimStart l).take 2 = [' ', ' '] ∧ hasItems = true then
      ((polAux rest hasItems).1, (polAux rest hasItems).2 + 1)
    else ([], 0)

/-- `parse_ordered_list`. -/
def parse_ordered_list (ls : List (List Char)) : Json × Nat :=
  (Json.obj [(toChars "type", Json.str (toChars "orderedList")),
    (toChars "content", Json.arr (polAux ls false).1)], (polAux ls false).2)

/-- A blockquote line: `"> ..."` or exactly `">"` after leading whitespace. -/
def isQuoteLine (l : List Char) : Bool :=
  decide ((trimStart l).take 2 = ['>', ' ']) || decide (trimStart l = ['>'])

/-- Strip the quote marker from a blockquote line. -/
def stripQuote (l : List Char) : List Char :=
  if (trimStart l).take 2 = ['>', ' '] then (trimStart l).drop 2 else []

theorem pblAux_consumed_pos {l : List Char} {rest : List (List Char)} {b : Bool}
    (h : (trimStart l).take 2 = ['-', ' '] ∨ (trimStart l).take 2 = ['*', ' ']) :
    1 ≤ (pblAux (l :: rest) b).2 := by
  unfold pblAux
  rw [if_pos h]
  simp

theorem polAux_consumed_pos {l : List Char} {rest : List (List Char)} {b : Bool}
    (h : is_ordered_list_item (trimStart l) = true) :
    1 ≤ (polAux (l :: rest) b).2 := by
  unfold polAux
  rw [if_pos h]
  cases firstIdxOf (trimStart l) ['.', ' '] <;> simp

/-- The block-scanning loop of `parse_markdown_blocks`. -/
def pmbGo : List (List Char) → List Json
  | [] => []
  | line :: rest =>
    if (trimStart line).take 3 = [btChar, btChar, btChar] then
      create_code_block
        (List.intercalate ['\n']
          (rest.takeWhile (fun l => ¬((trimStart l).take 3 = [btChar, btChar, btChar]))))
        (trimChars ((trimStart line).dropWhile (fun c => c = btChar))) ::
      pmbGo (rest.drop
        ((rest.takeWhile (fun l => ¬((trimStart l).take 3 = [btChar, btChar, btChar]))).length + 1))
    else if isQuoteLine line = true then
      create_blockquote
        (List.intercalate ['\n'] (stripQuote line :: (rest.takeWhile (fun l => isQuoteLine l)).map stripQuote)) ::
      pmbGo (rest.drop (rest.takeWhile (fun l => isQuoteLine l)).length)
    else if (trimStart line).head? = some '#' ∧
        ((trimStart line).takeWhile (fun c => c = '#')).length ≤ 6 then
      create_heading
        (trimStart ((trimStart line).drop ((trimStart line).takeWhile (fun c => c = '#')).length))
        ((trimStart line).takeWhile (fun c => c = '#')).length ::
      pmbGo rest
    else if hbul : (trimStart line).take 2 = ['-', ' '] ∨ (trimStart line).take 2 = ['*', ' '] then
      (parse_bullet_list (line :: rest)).1 ::
      pmbGo ((line :: rest).drop (parse_bullet_list (line :: rest)).2)
    else if hord : is_ordered_list_item (trimStart line) = true then
      (parse_ordered_list (line :: rest)).1 ::
      pmbGo ((line :: rest).drop (parse_ordered_list (line :: rest)).2)
    else if trimChars line = [] then pmbGo rest
    else create_paragraph (trimChars line) :: pmbGo rest
termination_by ls => ls.length
decreasing_by
· rw [List.length_drop]
  simp
  omega
· rw [List.length_drop]
  simp
  omega
· simp
· have := @pblAux_consumed_pos _ rest false hbul
  rw [List.length_drop]
  simp only [parse_bullet_list] at *
  simp
  omega
· have := @polAux_consumed_pos _ rest false hord
  rw [List.length_drop]
  simp only [parse_ordered_list] at *
  simp
  omega
· simp
· simp

/-- `parse_markdown_blocks`: scan the lines, falling back to one empty
paragraph. -/
def parse_markdown_blocks (md : List Char) : List Json :=
  match pmbGo (toLines md) with
  | [] => [create_paragraph []]
  | blocks => blocks

/-- `markdown_to_adf`. -/
def markdown_to_adf (md : List Char) : Json :=
  Json.obj [(toChars "type", Json.str (toChars "doc")), (toChars "version", Json.num 1),
    (toChars "content", Json.arr (parse_markdown_blocks md))]

/-! ## ADF → Markdown (src/api/types.rs) -/

/-- The flag-collecting loop of `apply_marks_to_text`:
`(strong, em, code, strike)`. -/
def markFlags : List Json → Bool × Bool × Bool × Bool → Bool × Bool × Bool × Bool
  | [], f => f
  | m :: rest, (st, em, cd, sk) =>
    match jGetStr m (toChars "type") with
    | some t =>
      if t = toChars "strong" then markFlags rest (true, em, cd, sk)
      else if t = toChars "em" then markFlags rest (st, true, cd, sk)
      else if t = toChars "code" then markFlags rest (st, em, true, sk)
      else if t = toChars "strike" then markFlags rest (st, em, cd, true)
      else markFlags rest (st, em, cd, sk)
    | none => markFlags rest (st, em, cd, sk)

/-- Wrap in backticks when the flag is set. -/
def wrapCode (b : Bool) (t : List Char) : List Char :=
  if b then btChar :: t ++ [btChar] else t

/-- Wrap in `*` when the flag is set. -/
def wrapEm (b : Bool) (t : List Char) : List Char :=
  if b then '*' :: t ++ ['*'] else t

/-- Wrap in `**` when the flag is set. -/
def wrapStrong (b : Bool) (t : List Char) : List Char :=
  if b then '*' :: '*' :: t ++ ['*', '*'] else t

/-- Wrap in `~~` when the flag is set. -/
def wrapStrike (b : Bool) (t : List Char) : List Char :=
  if b then '~' :: '~' :: t ++ ['~', '~'] else t

/-- `apply_marks_to_text`: collect the recognized mark flags, then wrap
code, em, strong, strike — in that order. -/
def apply_marks_to_text (text : List Char) (marks : Option Json) : List Char :=
  match marks.bind asArr with
  | none => text
  | some l =>
    wrapStrike (markFlags l (false, false, false, false)).2.2.2
      (wrapStrong (markFlags l (false, false, false, false)).1
        (wrapEm (markFlags l (false, false, false, false)).2.1
          (wrapCode (markFlags l (false, false, false, false)).2.2.1 text)))

/-- Append text to the last line, starting one if none exists. -/
def appendToLast : List (List Char) → List Char → List (List Char)
  | [], t => [t]
  | [l], t => [l ++ t]
  | l :: rest, t => l :: appendToLast rest t

/-- `> `-prefix a line (bare `>` for an empty line). -/
def quotize (l : List Char) : List Char :=
  if l = [] then ['>'] else '>' :: ' ' :: l

/-- The heading level attribute: `attrs.level` as u64, defaulting to 1. -/
def headingLevel (node : Json) : Nat :=
  (((jGet node (toChars "attrs")).bind (fun a => jGet a (toChars "level"))).bind asU64).getD 1

/-- The code block language attribute, defaulting to the empty string. -/
def codeLang (node : Json) : List Char :=
  (((jGet node (toChars "attrs")).bind (fun a => jGet a (toChars "language"))).bind asStr).getD []

/-- The lines of the text children of a code block. -/
def codeBlockLines (kids : List Json) : List (List Char) :=
  (kids.map (fun c =>
    match jGetStr c (toChars "text") with
    | some t => toLines t
    | none => [])).flatten

/-- Whether a value is a JSON object (`Value::as_object().is_some()`). -/
def isObjJson : Json → Bool
  | Json.obj _ => true
  | _ => false

mutual

/-- `extract_adf_to_markdown` from src/api/types.rs. -/
def extract_adf_to_markdown (node : Json) (lines : List (List Char)) (indent : Nat) :
    List (List Char) :=
  if isObjJson node = false then lines
  else
    if nodeType node = toChars "text" then
      match jGetStr node (toChars "text") with
      | some t => appendToLast lines (apply_marks_to_text t (jGet node (toChars "marks")))
      | none => lines
    else if nodeType node = toChars "paragraph" then
      extractMany (contentOf node) (lines ++ [List.replicate (2 * indent) ' ']) indent
    else if nodeType node = toChars "heading" then
      extractMany (contentOf node)
        (lines ++ [List.replicate (min (headingLevel node) 6) '#' ++ [' ']]) 0
    else if nodeType node = toChars "bulletList" then
      extractItems (contentOf node) lines indent
    else if nodeType node = toChars "orderedList" then
      extractItemsOrd (contentOf node) lines indent 1
    else if nodeType node = toChars "listItem" then
      extractMany (contentOf node) lines indent
    else if nodeType node = toChars "codeBlock" then
      (lines ++ [[btChar, btChar, btChar] ++ codeLang node] ++
        codeBlockLines (contentOf node)) ++ [[btChar, btChar, btChar]]
    else if nodeType node = toChars "blockquote" then
      (extractMany (contentOf node) lines indent).take lines.length ++
        ((extractMany (contentOf node) lines indent).drop lines.length).map quotize
    else if nodeType node = toChars "hardBreak" then lines ++ [[]]
    else extractMany (contentOf node) lines indent
termination_by 2 * sizeOf node + 1
decreasing_by
  all_goals simp_wf
  all_goals (try omega)
  all_goals (have h1 := contentOf_sizeOf_le node; omega)

/-- Fold `extract_adf_to_markdown` over a list of children. -/
def extractMany (nodes : List Json) (lines : List (List Char)) (indent : Nat) :
    List (List Char) :=
  match nodes with
  | [] => lines
  | c :: rest => extractMany rest (extract_adf_to_markdown c lines indent) indent
termination_by 2 * sizeOf nodes
decreasing_by
  all_goals simp_wf
  all_goals omega

/-- Bullet-list items: each child through `extract_list_item_markdown` with
marker `"- "`. -/
def extractItems (nodes : List Json) (lines : List (List Char)) (indent : Nat) :
    List (List Char) :=
  match nodes with
  | [] => lines
  | c :: rest =>
    extractItems rest (extract_list_item_markdown c lines indent (toChars "- ")) indent
termination_by 2 * sizeOf nodes
decreasing_by
  all_goals simp_wf
  all_goals omega

/-- Ordered-list items: markers `"1. "`, `"2. "`, …. -/
def extractItemsOrd (nodes : List Json) (lines : List (List Char)) (indent : Nat)
    (idx : Nat) : List (List Char) :=
  match nodes with
  | [] => lines
  | c :: rest =>
    extractItemsOrd rest
      (extract_list_item_markdown c lines indent (decimalString idx ++ toChars ". "))
      indent (idx + 1)
termination_by 2 * sizeOf nodes
decreasing_by
  all_goals simp_wf
  all_goals omega

/-- `extract_list_item_markdown` from src/api/types.rs. -/
def extract_list_item_markdown (node : Json) (lines : List (List Char)) (indent : Nat)
    (marker : List Char) : List (List Char) :=
  if isObjJson node = false then lines
  else extractLIKids (contentOf node) lines indent marker true
termination_by 2 * sizeOf node + 1
decreasing_by
  all_goals simp_wf
  all_goals (try omega)
  all_goals (have h1 := contentOf_sizeOf_le node; omega)

/-- The child loop of `extract_list_item_markdown`, tracking whether the next
paragraph is the first (getting the marker) or a continuation (indented). -/
def extractLIKids (kids : List Json) (lines : List (List Char)) (indent : Nat)
    (marker : List Char) (first : Bool) : List (List Char) :=
  match kids with
  | [] => lines
  | k :: rest =>
    if nodeType k = toChars "paragraph" then
      extractLIKids rest
        (extractMany (contentOf k)
          (lines ++ [if first then List.replicate (2 * indent) ' ' ++ marker
                     else List.replicate (2 * indent) ' ' ++ [' ', ' ']])
          (indent + 1))
        indent marker false
    else if nodeType k = toChars "bulletList" ∨ nodeType k = toChars "orderedList" then
      extractLIKids rest (extract_adf_to_markdown k lines (indent + 1)) indent marker first
    else
      extractLIKids rest (extract_adf_to_markdown k lines (indent + 1)) indent marker first
termination_by 2 * sizeOf kids
decreasing_by
  all_goals simp_wf
  all_goals (try omega)
  all_goals (first
    | exact Nat.lt_of_le_of_lt (contentOf_sizeOf_le _) (by omega)
    | exact Nat.lt_of_lt_of_le
        (Nat.mul_lt_mul_of_lt_of_le (by omega) (Nat.le_refl 2) (by omega)) (by omega))

end

/-- `Worklog::comment_text` on the comment's content array: extract every node,
join with newlines, trim. -/
def comment_text (contents : List Json) : List Char :=
  trimChars (List.intercalate ['\n'] (extractMany contents [] 0))

/-! ## C4: mark wrapping order -/

/-- Spec-side: whether the mark list contains a mark of the given type. -/
def hasMarkType (marks : List Json) (name : List Char) : Bool :=
  marks.any (fun m => jGetStr m (toChars "type") = some name)

/-- Spec-side mark application, as the claim words it: the value wrapped by its
recognized marks innermost-out in the fixed order code, italic, bold,
strikethrough; unrecognized marks ignored. -/
def specApplyMarks (text : List Char) (marks : List Json) : List Char :=
  wrapStrike (hasMarkType marks (toChars "strike"))
    (wrapStrong (hasMarkType marks (toChars "strong"))
      (wrapEm (hasMarkType marks (toChars "em"))
        (wrapCode (hasMarkType marks (toChars "code")) text)))

theorem hasMarkType_cons (m : Json) (rest : List Json) (name : List Char) :
    hasMarkType (m :: rest) name =
      (decide (jGetStr m (toChars "type") = some name) || hasMarkType rest name) := by
  unfold hasMarkType
  rw [List.any_cons]

theorem markFlags_cons (m : Json) (rest : List Json) (st em cd sk : Bool) :
    markFlags (m :: rest) (st, em, cd, sk) =
      (match jGetStr m (toChars "type") with
       | some t =>
         if t = toChars "strong" then markFlags rest (true, em, cd, sk)
         else if t = toChars "em" then markFlags rest (st, true, cd, sk)
         else if t = toChars "code" then markFlags rest (st, em, true, sk)
         else if t = toChars "strike" then markFlags rest (st, em, cd, true)
         else markFlags rest (st, em, cd, sk)
       | none => markFlags rest (st, em, cd, sk)) := rfl

theorem markFlags_spec :
    ∀ (marks : List Json) (st em cd sk : Bool),
      markFlags marks (st, em, cd, sk) =
        (st || hasMarkType marks (toChars "strong"),
         em || hasMarkType marks (toChars "em"),
         cd || hasMarkType marks (toChars "code"),
         sk || hasMarkType marks (toChars "strike")) := by
  intro marks
  induction marks with
  | nil =>
    intro st em cd sk
    simp [markFlags, hasMarkType]
  | cons m rest ih =>
    intro st em cd sk
    rw [markFlags_cons]
    cases hm : jGetStr m (toChars "type") with
    | none =>
      rw [hasMarkType_cons, hasMarkType_cons, hasMarkType_cons, hasMarkType_cons, hm]
      show markFlags rest (st, em, cd, sk) = _
      rw [ih st em cd sk]
      simp
    | some t =>
      show (if t = toChars "strong" then markFlags rest (true, em, cd, sk)
        else if t = toChars "em" then markFlags rest (st, true, cd, sk)
        else if t = toChars "code" then markFlags rest (st, em, true, sk)
        else if t = toChars "strike" then markFlags rest (st, em, cd, true)
        else markFlags rest (st, em, cd, sk)) = _
      by_cases h1 : t = toChars "strong"
      · subst h1
        rw [if_pos rfl, ih, hasMarkType_cons, hasMarkType_cons, hasMarkType_cons,
          hasMarkType_cons, hm,
          show decide (some (toChars "strong") = some (toChars "strong")) = true by decide,
          show decide (some (toChars "strong") = some (toChars "em")) = false by decide,
          show decide (some (toChars "strong") = some (toChars "code")) = false by decide,
          show decide (some (toChars "strong") = some (toChars "strike")) = false by decide]
        simp
      · rw [if_neg h1]
        by_cases h2 : t = toChars "em"
        · subst h2
          rw [if_pos rfl, ih, hasMarkType_cons, hasMarkType_cons, hasMarkType_cons,
            hasMarkType_cons, hm,
            show decide (some (toChars "em") = some (toChars "strong")) = false by decide,
            show decide (some (toChars "em") = some (toChars "em")) = true by decide,
            show decide (some (toChars "em") = some (toChars "code")) = false by decide,
            show decide (some (toChars "em") = some (toChars "strike")) = false by decide]
          simp
        · rw [if_neg h2]
          by_cases h3 : t = toChars "code"
          · subst h3
            rw [if_pos rfl, ih, hasMarkType_cons, hasMarkType_cons, hasMarkType_cons,
              hasMarkType_cons, hm,
              show decide (some (toChars "code") = some (toChars "strong")) = false by decide,
              show decide (some (toChars "code") = some (toChars "em")) = false by decide,
              show decide (some (toChars "code") = some (toChars "code")) = true by decide,
              show decide (some (toChars "code") = some (toChars "strike")) = false by decide]
            simp
          · rw [if_neg h3]
            by_cases h4 : t = toChars "strike"
            · subst h4
              rw [if_pos rfl, ih, hasMarkType_cons, hasMarkType_cons, hasMarkType_cons,
                hasMarkType_cons, hm,
                show decide (some (toChars "strike") = some (toChars "strong")) = false by decide,
                show decide (some (toChars "strike") = some (toChars "em")) = false by decide,
                show decide (some (toChars "strike") = some (toChars "code")) = false by decide,
                show decide (some (toChars "strike") = some (toChars "strike")) = true by decide]
              simp
            · rw [if_neg h4, ih, hasMarkType_cons, hasMarkType_cons, hasMarkType_cons,
                hasMarkType_cons, hm,
                show decide (some t = some (toChars "strong")) = false by simp [h1],
                show decide (some t = some (toChars "em")) = false by simp [h2],
                show decide (some t = some (toChars "code")) = false by simp [h3],
                show decide (some t = some (toChars "strike")) = false by simp [h4]]
              simp

/-- C4: for every text node value and mark array, the exporter emits the value
wrapped by its recognized marks applied innermost-out in the fixed order
code, italic, bold, strikethrough; unrecognized mark types are ignored, and a
missing mark array leaves the text unchanged. -/
theorem c4_apply_marks_order :
    ∀ (text : List Char) (marks : List Json),
      apply_marks_to_text text (some (Json.arr marks)) = specApplyMarks text marks ∧
      apply_marks_to_text text none = text := by
  intro text marks
  constructor
  · unfold apply_marks_to_text
    show wrapStrike (markFlags marks (false, false, false, false)).2.2.2
      (wrapStrong (markFlags marks (false, false, false, false)).1
        (wrapEm (markFlags marks (false, false, false, false)).2.1
          (wrapCode (markFlags marks (false, false, false, false)).2.2.1 text))) = _
    rw [markFlags_spec]
    unfold specApplyMarks
    simp
  · rfl

/-! ## C3: heading level clamp -/

/-- A heading node with a numeric `level` attribute. -/
def headingNode (level : Int) (kids : List Json) : Json :=
  Json.obj [(toChars "type", Json.str (toChars "heading")),
    (toChars "attrs", Json.obj [(toChars "level", Json.num level)]),
    (toChars "content", Json.arr kids)]

/-- A heading node with no `attrs` at all. -/
def headingNodeNoAttrs (kids : List Json) : Json :=
  Json.obj [(toChars "type", Json.str (toChars "heading")),
    (toChars "content", Json.arr kids)]

theorem appendToLast_concat (L : List (List Char)) (x t : List Char) :
    appendToLast (L ++ [x]) t = L ++ [x ++ t] := by
  induction L with
  | nil => rfl
  | cons l rest ih =>
    cases hL : rest ++ [x] with
    | nil => exact absurd hL (by simp)
    | cons y ys =>
      show appendToLast (l :: (rest ++ [x])) t = _
      rw [hL]
      show l :: appendToLast (y :: ys) t = _
      rw [← hL, ih]
      rfl

theorem heading_eval (ℓ : Nat) (t : List Char) (lines : List (List Char)) :
    extract_adf_to_markdown (headingNode (ℓ : Int) [textNode t []]) lines 0 =
      lines ++ [List.replicate (min ℓ 6) '#' ++ ' ' :: t] := by
  have hω : headingLevel (headingNode (ℓ : Int) [textNode t []]) = ℓ := by
    show ((if 0 ≤ (ℓ : Int) then some (ℓ : Int).toNat else none)).getD 1 = ℓ
    rw [if_pos (Int.natCast_nonneg ℓ)]
    show (ℓ : Int).toNat = ℓ
    omega
  rw [extract_adf_to_markdown]
  show extractMany (contentOf (headingNode (ℓ : Int) [textNode t []]))
    (lines ++ [List.replicate (min (headingLevel (headingNode (ℓ : Int) [textNode t []])) 6) '#'
      ++ [' ']]) 0 = _
  rw [hω, show contentOf (headingNode (ℓ : Int) [textNode t []]) = [textNode t []] from rfl]
  rw [extractMany, extractMany, extract_adf_to_markdown]
  show appendToLast (lines ++ [List.replicate (min ℓ 6) '#' ++ [' ']]) t = _
  rw [appendToLast_concat]
  simp

theorem heading_eval_noattrs (t : List Char) (lines : List (List Char)) :
    extract_adf_to_markdown (headingNodeNoAttrs [textNode t []]) lines 0 =
      lines ++ ['#' :: ' ' :: t] := by
  rw [extract_adf_to_markdown]
  show extractMany (contentOf (headingNodeNoAttrs [textNode t []]))
    (lines ++ [List.replicate (min (headingLevel (headingNodeNoAttrs [textNode t []])) 6) '#'
      ++ [' ']]) 0 = _
  rw [show headingLevel (headingNodeNoAttrs [textNode t []]) = 1 from rfl,
    show contentOf (headingNodeNoAttrs [textNode t []]) = [textNode t []] from rfl]
  rw [extractMany, extractMany, extract_adf_to_markdown]
  show appendToLast (lines ++ [List.replicate (min 1 6) '#' ++ [' ']]) t = _
  rw [appendToLast_concat]
  simp

/-- C3 (amended): the exporter emits `min(level, 6)` hash characters — the
level attribute is clamped from above only, so a level-0 heading produces a
line with zero leading `#`; a heading with no numeric level attribute defaults
to level 1. -/
theorem c3_heading_level_amended :
    ∀ (ℓ : Nat) (t : List Char) (lines : List (List Char)),
      extract_adf_to_markdown (headingNode (ℓ : Int) [textNode t []]) lines 0 =
        lines ++ [List.replicate (min ℓ 6) '#' ++ ' ' :: t] ∧
      extract_adf_to_markdown (headingNodeNoAttrs [textNode t []]) lines 0 =
        lines ++ ['#' :: ' ' :: t] :=
  fun ℓ t lines => ⟨heading_eval ℓ t lines, heading_eval_noattrs t lines⟩

/-- C3 counterexample: a heading whose `level` attribute is 0 produces the line
`" Hi"`, with no `#` at all — the code clamps only from above (`level.min(6)`),
never up to 1. -/
theorem c3_heading_level_counterexample :
    extract_adf_to_markdown (headingNode 0 [textNode (toChars "Hi") []]) [] 0 =
      [' ' :: toChars "Hi"] ∧
    ¬('#' ∈ (' ' :: toChars "Hi")) := by
  constructor
  · have h := heading_eval 0 (toChars "Hi") []
    simpa using h
  · decide

/-! ## C2: list continuation lines -/

theorem parse_inline_plain {text : List Char} (hne : text ≠ [])
    (h : try_match_inline text = none) :
    parse_inline_formatting text = [textNode text []] := by
  unfold parse_inline_formatting
  rw [if_neg hne]
  have hgo : parseInlineGo text = [textNode text []] := by
    rw [parseInlineGo]
    rw [if_neg hne, h]
  rw [hgo]

/-- C2 evaluation: on `"- a\n  b"` the two-space "continuation" line is not
dropped; the dead `starts_with("  ")` guard (tested after `trim_start`) makes
the list stop, and the line becomes a separate paragraph block. -/
theorem c2_continuation_line_eval :
    parse_markdown_blocks (toChars "- a\n  b") =
      [Json.obj [(toChars "type", Json.str (toChars "bulletList")),
        (toChars "content", Json.arr [create_list_item (toChars "a")])],
       create_paragraph (toChars "b")] ∧
    parse_markdown_blocks (toChars "- a\n  b") ≠
      [Json.obj [(toChars "type", Json.str (toChars "bulletList")),
        (toChars "content", Json.arr [create_list_item (toChars "a")])]] := by
  have hlines : toLines (toChars "- a\n  b") = [toChars "- a", toChars "  b"] := by decide
  have hpb : parse_bullet_list [toChars "- a", toChars "  b"] =
      (Json.obj [(toChars "type", Json.str (toChars "bulletList")),
        (toChars "content", Json.arr [create_list_item (toChars "a")])], 1) := rfl
  have hnil : pmbGo [] = [] := by rw [pmbGo]
  have h2 : pmbGo [toChars "  b"] = [create_paragraph (toChars "b")] := by
    rw [pmbGo]
    have d1 : ¬((trimStart (toChars "  b")).take 3 = [btChar, btChar, btChar]) := by decide
    have d2 : ¬(isQuoteLine (toChars "  b") = true) := by decide
    have d3 : ¬((trimStart (toChars "  b")).head? = some '#' ∧
        ((trimStart (toChars "  b")).takeWhile (fun c => c = '#')).length ≤ 6) := by decide
    have d4 : ¬((trimStart (toChars "  b")).take 2 = ['-', ' '] ∨
        (trimStart (toChars "  b")).take 2 = ['*', ' ']) := by decide
    have d5 : ¬(is_ordered_list_item (trimStart (toChars "  b")) = true) := by decide
    have d6 : ¬(trimChars (toChars "  b") = []) := by decide
    rw [if_neg d1, if_neg d2, if_neg d3, dif_neg d4, dif_neg d5, if_neg d6, hnil]
    rw [show trimChars (toChars "  b") = toChars "b" from by decide]
  have h1 : pmbGo [toChars "- a", toChars "  b"] =
      [Json.obj [(toChars "type", Json.str (toChars "bulletList")),
        (toChars "content", Json.arr [create_list_item (toChars "a")])],
       create_paragraph (toChars "b")] := by
    rw [pmbGo]
    have c1 : ¬((trimStart (toChars "- a")).take 3 = [btChar, btChar, btChar]) := by decide
    have c2 : ¬(isQuoteLine (toChars "- a") = true) := by decide
    have c3 : ¬((trimStart (toChars "- a")).head? = some '#' ∧
        ((trimStart (toChars "- a")).takeWhile (fun c => c = '#')).length ≤ 6) := by decide
    have c4 : (trimStart (toChars "- a")).take 2 = ['-', ' '] ∨
        (trimStart (toChars "- a")).take 2 = ['*', ' '] := by decide
    rw [if_neg c1, if_neg c2, if_neg c3, dif_pos c4, hpb]
    show Json.obj [(toChars "type", Json.str (toChars "bulletList")),
        (toChars "content", Json.arr [create_list_item (toChars "a")])] ::
      pmbGo [toChars "  b"] = _
    rw [h2]
  constructor
  · unfold parse_markdown_blocks
    rw [hlines, h1]
  · unfold parse_markdown_blocks
    rw [hlines, h1]
    intro hcon
    have := congrArg List.length hcon
    simp at this

/-! ## C1: inline pattern precedence -/

/-- The claim's pattern table, in strict precedence order, with the marks each
pattern carries. -/
def inlinePatterns : List (List Char × List Json) :=
  [(toChars "***", [markNode (toChars "strong"), markNode (toChars "em")]),
   (toChars "**", [markNode (toChars "strong")]),
   (toChars "~~", [markNode (toChars "strike")]),
   (toChars "`", [markNode (toChars "code")]),
   (toChars "*", [markNode (toChars "em")]),
   (toChars "_", [markNode (toChars "em")])]

/-- Spec-side matcher: the first pattern of the table, in precedence order,
whose delimiter matches — anchored at the delimiter's first occurrence, with a
later closing occurrence and non-empty content between them. -/
def specTryMatch (text : List Char) :
    Option (List Char × List Char × List Json × List Char) :=
  (inlinePatterns.filterMap (fun p =>
    (find_pattern text p.1 p.1).map (fun m => (m.1, m.2.1, p.2, m.2.2)))).head?

theorem specTryMatch_eq (text : List Char) : specTryMatch text = try_match_inline text := by
  unfold specTryMatch inlinePatterns try_match_inline
  simp only [List.filterMap_cons, List.filterMap_nil]
  cases h1 : find_pattern text (toChars "***") (toChars "***") with
  | some m => simp [h1]
  | none =>
  cases h2 : find_pattern text (toChars "**") (toChars "**") with
  | some m => simp [h1, h2]
  | none =>
  cases h3 : find_pattern text (toChars "~~") (toChars "~~") with
  | some m => simp [h1, h2, h3]
  | none =>
  cases h4 : find_pattern text (toChars "`") (toChars "`") with
  | some m => simp [h1, h2, h3, h4]
  | none =>
  cases h5 : find_pattern text (toChars "*") (toChars "*") with
  | some m => simp [h1, h2, h3, h4, h5]
  | none =>
  cases h6 : find_pattern text (toChars "_") (toChars "_") with
  | some m => simp [h1, h2, h3, h4, h5, h6]
  | none => simp [h1, h2, h3, h4, h5, h6]

/-- The spec-side scanning loop: split at the match, text before it plain, the
content marked, resume after the closing delimiter; no match leaves the rest
as one plain text node. -/
def inlineSpecGo (remaining : List Char) : List Json :=
  if remaining = [] then []
  else
    match h : specTryMatch remaining with
    | some (before, content, marks, after) =>
      (if before = [] then [] else [textNode before []]) ++
        textNode content marks :: inlineSpecGo after
    | none => [textNode remaining []]
termination_by remaining.length
decreasing_by
  rw [specTryMatch_eq] at h
  exact try_match_length h

/-- The spec-side inline parser. -/
def inlineSpec (text : List Char) : List Json :=
  if text = [] then [textNode [] []]
  else
    match inlineSpecGo text with
    | [] => [textNode [] []]
    | r => r

theorem parseInlineGo_eq :
    ∀ (n : Nat) (text : List Char), text.length ≤ n →
      parseInlineGo text = inlineSpecGo text := by
  intro n
  induction n with
  | zero =>
    intro text h
    have hnil : text = [] := List.eq_nil_of_length_eq_zero (by omega)
    subst hnil
    rw [parseInlineGo, inlineSpecGo]
    rfl
  | succ n ih =>
    intro text h
    rw [parseInlineGo, inlineSpecGo]
    by_cases hne : text = []
    · rw [if_pos hne, if_pos hne]
    · rw [if_neg hne, if_neg hne]
      have hs := specTryMatch_eq text
      cases hm : try_match_inline text with
      | none =>
        rw [hm] at hs
        cases hs2 : specTryMatch text with
        | none => rfl
        | some m2 =>
          rw [hs2] at hs
          exact absurd hs (by simp)
      | some m =>
        rw [hm] at hs
        cases hs2 : specTryMatch text with
        | none =>
          rw [hs2] at hs
          exact absurd hs (by simp)
        | some m2 =>
          rw [hs2] at hs
          have hmm : m2 = m := Option.some_inj.mp hs
          subst hmm
          have hlen := try_match_length
            (show try_match_inline text = some (m2.1, m2.2.1, m2.2.2.1, m2.2.2.2) from hm)
          have hrec := ih m2.2.2.2 (by omega)
          show ((if m2.1 = [] then [] else [textNode m2.1 []]) ++
              textNode m2.2.1 m2.2.2.1 :: parseInlineGo m2.2.2.2) =
            ((if m2.1 = [] then [] else [textNode m2.1 []]) ++
              textNode m2.2.1 m2.2.2.1 :: inlineSpecGo m2.2.2.2)
          rw [hrec]

/-- C1 (amended): the inline parser equals the spec-side parser built from the
pattern table in strict precedence order `***`, `**`, `~~`, backtick, `*`, `_`
— where each pattern is anchored at the FIRST occurrence of its delimiter (the
match succeeds only if a closing delimiter follows that first occurrence with
non-empty content); text before the match is plain, the content carries the
pattern's marks, the scan resumes after the closing delimiter, and an
unmatched remainder becomes one final plain text node. -/
theorem c1_inline_precedence :
    ∀ text : List Char, parse_inline_formatting text = inlineSpec text := by
  intro text
  unfold parse_inline_formatting inlineSpec
  rw [parseInlineGo_eq text.length text (le_refl _)]

/-- C1 counterexample: `"****a**"` contains the balanced pair `**a**` with
non-empty content, but the parser anchors `**` at its first occurrence (index
0), finds the closing delimiter immediately (empty content), gives up on the
pattern entirely, and emits one plain text node. -/
theorem c1_inline_counterexample :
    toChars "****a**" = toChars "**" ++ toChars "**" ++ toChars "a" ++ toChars "**" ∧
    parse_inline_formatting (toChars "****a**") = [textNode (toChars "****a**") []] ∧
    parse_inline_formatting (toChars "****a**") ≠
      [textNode (toChars "**") [], textNode (toChars "a") [markNode (toChars "strong")]] := by
  have hm : try_match_inline (toChars "****a**") = none := rfl
  have h1 := parse_inline_plain (by decide) hm
  refine ⟨by decide, h1, ?_⟩
  rw [h1]
  intro hcon
  have := congrArg List.length hcon
  simp at this

/-! ## C7: single-bold round trip -/

/-- A `{"type":"text","text":v,"marks":[{"type":"strong"}]}` node. -/
def textNodeStrong (v : List Char) : Json := textNode v [markNode (toChars "strong")]

/-- A paragraph containing exactly one bold text node, shaped exactly as
`create_paragraph` builds it. -/
def boldPara (v : List Char) : Json :=
  Json.obj [(toChars "type", Json.str (toChars "paragraph")),
    (toChars "content", Json.arr [textNodeStrong v])]

theorem intercalate_singleton (x : List Char) : List.intercalate ['\n'] [x] = x := by
  simp [List.intercalate]

theorem boldline_head (v : List Char) :
    ∀ c, ('*' :: '*' :: (v ++ ['*', '*'])).head? = some c → isWsChar c = false := by
  intro c hc
  rw [show ('*' :: '*' :: (v ++ ['*', '*'])).head? = some '*' from rfl] at hc
  rw [Option.some_inj] at hc
  rw [← hc]
  decide

theorem boldline_last (v : List Char) :
    ∀ c, ('*' :: '*' :: (v ++ ['*', '*'])).getLast? = some c → isWsChar c = false := by
  intro c hc
  have he : '*' :: '*' :: (v ++ ['*', '*']) = ('*' :: '*' :: v ++ ['*']) ++ ['*'] := by
    simp
  rw [he, List.getLast?_concat] at hc
  rw [Option.some_inj] at hc
  rw [← hc]
  decide

theorem bold_extract (v : List Char) :
    extractMany [boldPara v] [] 0 = ['*' :: '*' :: (v ++ ['*', '*'])] := by
  rw [extractMany, extractMany, extract_adf_to_markdown]
  show extractMany (contentOf (boldPara v)) ([] ++ [List.replicate (2 * 0) ' ']) 0 = _
  rw [show contentOf (boldPara v) = [textNodeStrong v] from rfl]
  rw [extractMany, extractMany, extract_adf_to_markdown]
  show appendToLast ([] ++ [List.replicate (2 * 0) ' '])
    (apply_marks_to_text v (jGet (textNodeStrong v) (toChars "marks"))) = _
  rw [show jGet (textNodeStrong v) (toChars "marks") =
    some (Json.arr [markNode (toChars "strong")]) from rfl]
  show appendToLast [[]]
    (wrapStrike (markFlags [markNode (toChars "strong")] (false, false, false, false)).2.2.2
      (wrapStrong (markFlags [markNode (toChars "strong")] (false, false, false, false)).1
        (wrapEm (markFlags [markNode (toChars "strong")] (false, false, false, false)).2.1
          (wrapCode (markFlags [markNode (toChars "strong")] (false, false, false, false)).2.2.1
            v)))) = _
  rw [markFlags_spec]
  rw [show hasMarkType [markNode (toChars "strong")] (toChars "strong") = true from by decide,
    show hasMarkType [markNode (toChars "strong")] (toChars "em") = false from by decide,
    show hasMarkType [markNode (toChars "strong")] (toChars "code") = false from by decide,
    show hasMarkType [markNode (toChars "strong")] (toChars "strike") = false from by decide]
  simp [wrapCode, wrapEm, wrapStrong, wrapStrike, appendToLast]

/-- Exporting a single bold paragraph yields exactly `**v**`. -/
theorem bold_to_text (v : List Char) :
    comment_text [boldPara v] = '*' :: '*' :: (v ++ ['*', '*']) := by
  unfold comment_text
  rw [bold_extract, intercalate_singleton]
  exact trimChars_eq_self (boldline_head v) (boldline_last v)

theorem splitOn_no_sep_gen {l : List Char} {sep : Char} (h : sep ∉ l) :
    l.splitOn sep = [l] := by
  unfold List.splitOn
  exact List.splitOnP_eq_single _ _ (fun x hx => by
    rw [beq_iff_eq]
    intro he
    exact h (he ▸ hx))

theorem starfree_no_close3 :
    ∀ (w : List Char), '*' ∉ w →
      firstIdxOf (w ++ ['*', '*']) (toChars "***") = none := by
  intro w
  induction w with
  | nil =>
    intro h
    rfl
  | cons c w2 ih =>
    intro h
    have hc : c ≠ '*' := fun he => h (he ▸ List.mem_cons_self c w2)
    show (if List.take (toChars "***").length (c :: (w2 ++ ['*', '*'])) = toChars "***"
      then some 0
      else (firstIdxOf (w2 ++ ['*', '*']) (toChars "***")).map (fun i => i + 1)) = none
    rw [if_neg (by
      intro hcon
      have h1 := congrArg List.head? hcon
      rw [show (List.take (toChars "***").length (c :: (w2 ++ ['*', '*']))).head? = some c
        from rfl] at h1
      rw [show (toChars "***").head? = some '*' from rfl] at h1
      exact hc (Option.some_inj.mp h1))]
    rw [ih (fun hm => h (List.mem_cons_of_mem c hm))]
    rfl

theorem starfree_close2 :
    ∀ (w : List Char), '*' ∉ w →
      firstIdxOf (w ++ ['*', '*']) (toChars "**") = some w.length := by
  intro w
  induction w with
  | nil =>
    intro h
    rfl
  | cons c w2 ih =>
    intro h
    have hc : c ≠ '*' := fun he => h (he ▸ List.mem_cons_self c w2)
    show (if List.take (toChars "**").length (c :: (w2 ++ ['*', '*'])) = toChars "**"
      then some 0
      else (firstIdxOf (w2 ++ ['*', '*']) (toChars "**")).map (fun i => i + 1)) =
      some (c :: w2).length
    rw [if_neg (by
      intro hcon
      have h1 := congrArg List.head? hcon
      rw [show (List.take (toChars "**").length (c :: (w2 ++ ['*', '*']))).head? = some c
        from rfl] at h1
      rw [show (toChars "**").head? = some '*' from rfl] at h1
      exact hc (Option.some_inj.mp h1))]
    rw [ih (fun hm => h (List.mem_cons_of_mem c hm))]
    rfl

theorem boldline_fp3 {v : List Char} (hv : v ≠ []) (hstar : '*' ∉ v) :
    firstIdxOf ('*' :: '*' :: (v ++ ['*', '*'])) (toChars "***") = none := by
  cases v with
  | nil => exact absurd rfl hv
  | cons v0 v2 =>
    have hv0 : v0 ≠ '*' := fun he => hstar (he ▸ List.mem_cons_self v0 v2)
    show (if List.take (toChars "***").length ('*' :: '*' :: (v0 :: v2 ++ ['*', '*'])) =
        toChars "***"
      then some 0
      else (firstIdxOf ('*' :: (v0 :: v2 ++ ['*', '*'])) (toChars "***")).map
        (fun i => i + 1)) = none
    rw [if_neg (by
      intro hcon
      have h1 := congrArg (fun l => l.drop 2) hcon
      rw [show (fun l => List.drop 2 l)
          (List.take (toChars "***").length ('*' :: '*' :: (v0 :: v2 ++ ['*', '*']))) = [v0]
        from rfl] at h1
      rw [show (fun l => List.drop 2 l) (toChars "***") = ['*'] from rfl] at h1
      have h2 := congrArg List.head? h1
      rw [show ([v0] : List Char).head? = some v0 from rfl] at h2
      rw [show (['*'] : List Char).head? = some '*' from rfl] at h2
      exact hv0 (Option.some_inj.mp h2))]
    show (if List.take (toChars "***").length ('*' :: (v0 :: v2 ++ ['*', '*'])) = toChars "***"
      then some 0
      else (firstIdxOf (v0 :: v2 ++ ['*', '*']) (toChars "***")).map (fun i => i + 1)).map
        (fun i => i + 1) = none
    rw [if_neg (by
      intro hcon
      have h1 := congrArg (fun l => l.drop 1) hcon
      rw [show (fun l => List.drop 1 l)
          (List.take (toChars "***").length ('*' :: (v0 :: v2 ++ ['*', '*']))) =
          List.take 2 (v0 :: v2 ++ ['*', '*']) from rfl] at h1
      rw [show (fun l => List.drop 1 l) (toChars "***") = ['*', '*'] from rfl] at h1
      have h2 := congrArg List.head? h1
      rw [show (List.take 2 (v0 :: v2 ++ ['*', '*'])).head? = some v0 from rfl] at h2
      rw [show (['*', '*'] : List Char).head? = some '*' from rfl] at h2
      exact hv0 (Option.some_inj.mp h2))]
    rw [starfree_no_close3 (v0 :: v2) hstar]
    rfl

theorem boldline_fp2 {v : List Char} (hv : v ≠ []) (hstar : '*' ∉ v) :
    find_pattern ('*' :: '*' :: (v ++ ['*', '*'])) (toChars "**") (toChars "**") =
      some ([], v, []) := by
  have h0 : firstIdxOf ('*' :: '*' :: (v ++ ['*', '*'])) (toChars "**") = some 0 := by
    show (if List.take (toChars "**").length ('*' :: '*' :: (v ++ ['*', '*'])) = toChars "**"
      then some 0
      else (firstIdxOf ('*' :: (v ++ ['*', '*'])) (toChars "**")).map (fun i => i + 1)) = some 0
    rw [if_pos (show List.take (toChars "**").length ('*' :: '*' :: (v ++ ['*', '*'])) =
      toChars "**" from rfl)]
  unfold find_pattern
  rw [h0]
  show (match firstIdxOf (v ++ ['*', '*']) (toChars "**") with
    | none => none
    | some ep =>
      if ep = 0 then none
      else some (List.take 0 ('*' :: '*' :: (v ++ ['*', '*'])),
        List.take ep (v ++ ['*', '*']),
        List.drop (ep + (toChars "**").length) (v ++ ['*', '*']))) = some ([], v, []) 
  rw [starfree_close2 v hstar]
  show (if v.length = 0 then none
    else some (List.take 0 ('*' :: '*' :: (v ++ ['*', '*'])),
      List.take v.length (v ++ ['*', '*']),
      List.drop (v.length + (toChars "**").length) (v ++ ['*', '*']))) = some ([], v, [])
  rw [if_neg (by simp [hv])]
  rw [show List.take v.length (v ++ ['*', '*']) = v from List.take_left v ['*', '*']]
  rw [show (toChars "**").length = 2 from rfl]
  rw [List.drop_eq_nil_of_le (by simp)]
  rfl

theorem boldline_try_match {v : List Char} (hv : v ≠ []) (hstar : '*' ∉ v) :
    try_match_inline ('*' :: '*' :: (v ++ ['*', '*'])) =
      some ([], v, [markNode (toChars "strong")], []) := by
  have hfp3 : find_pattern ('*' :: '*' :: (v ++ ['*', '*'])) (toChars "***") (toChars "***") =
      none := by
    unfold find_pattern
    rw [boldline_fp3 hv hstar]
  unfold try_match_inline
  rw [hfp3]
  show (match find_pattern ('*' :: '*' :: (v ++ ['*', '*'])) (toChars "**") (toChars "**") with
    | some m => some (m.1, m.2.1, [markNode (toChars "strong")], m.2.2)
    | none =>
      match find_pattern ('*' :: '*' :: (v ++ ['*', '*'])) (toChars "~~") (toChars "~~") with
      | some m => some (m.1, m.2.1, [markNode (toChars "strike")], m.2.2)
      | none =>
      match find_pattern ('*' :: '*' :: (v ++ ['*', '*'])) (toChars "`") (toChars "`") with
      | some m => some (m.1, m.2.1, [markNode (toChars "code")], m.2.2)
      | none =>
      match find_pattern ('*' :: '*' :: (v ++ ['*', '*'])) (toChars "*") (toChars "*") with
      | some m => some (m.1, m.2.1, [markNode (toChars "em")], m.2.2)
      | none =>
      match find_pattern ('*' :: '*' :: (v ++ ['*', '*'])) (toChars "_") (toChars "_") with
      | some m => some (m.1, m.2.1, [markNode (toChars "em")], m.2.2)
      | none => none) = some ([], v, [markNode (toChars "strong")], [])
  rw [boldline_fp2 hv hstar]

theorem boldline_inline {v : List Char} (hv : v ≠ []) (hstar : '*' ∉ v) :
    parse_inline_formatting ('*' :: '*' :: (v ++ ['*', '*'])) = [textNodeStrong v] := by
  have hgo : parseInlineGo ('*' :: '*' :: (v ++ ['*', '*'])) = [textNodeStrong v] := by
    rw [parseInlineGo]
    rw [if_neg (by simp), boldline_try_match hv hstar]
    show (if ([] : List Char) = [] then [] else [textNode [] []]) ++
      textNode v [markNode (toChars "strong")] :: parseInlineGo [] = _
    rw [if_pos rfl]
    rw [show parseInlineGo [] = [] from by rw [parseInlineGo]; rfl]
    rfl
  unfold parse_inline_formatting
  rw [if_neg (by simp), hgo]

theorem boldline_toLines {v : List Char} (hnl : '\n' ∉ v) :
    toLines ('*' :: '*' :: (v ++ ['*', '*'])) = ['*' :: '*' :: (v ++ ['*', '*'])] := by
  have hnf : '\n' ∉ '*' :: '*' :: (v ++ ['*', '*']) := by
    intro hmem
    rcases List.mem_cons.mp hmem with h | hmem2
    · exact absurd h (by decide)
    · rcases List.mem_cons.mp hmem2 with h | hmem3
      · exact absurd h (by decide)
      · rcases List.mem_append.mp hmem3 with h | h
        · exact hnl h
        · exact absurd h (by decide)
  unfold toLines
  rw [if_neg (by simp), splitOn_no_sep_gen hnf]
  rw [if_neg (by
    intro hcon
    rw [show (['*' :: '*' :: (v ++ ['*', '*'])] : List (List Char)).getLast? =
      some ('*' :: '*' :: (v ++ ['*', '*'])) from rfl] at hcon
    rw [Option.some_inj] at hcon
    exact absurd hcon (by simp))]
  have hcr : stripCR ('*' :: '*' :: (v ++ ['*', '*'])) = '*' :: '*' :: (v ++ ['*', '*']) := by
    unfold stripCR
    rw [if_neg (by
      intro hcon
      have he : '*' :: '*' :: (v ++ ['*', '*']) = ('*' :: '*' :: v ++ ['*']) ++ ['*'] := by
        simp
      rw [he, List.getLast?_concat] at hcon
      rw [Option.some_inj] at hcon
      exact absurd hcon (by decide))]
  rw [List.map_cons, List.map_nil, hcr]

theorem boldline_pmb {v : List Char} (hv : v ≠ []) (hstar : '*' ∉ v) :
    pmbGo ['*' :: '*' :: (v ++ ['*', '*'])] = [boldPara v] := by
  have htr : trimStart ('*' :: '*' :: (v ++ ['*', '*'])) = '*' :: '*' :: (v ++ ['*', '*']) :=
    trimStart_eq_self (boldline_head v)
  have htc : trimChars ('*' :: '*' :: (v ++ ['*', '*'])) = '*' :: '*' :: (v ++ ['*', '*']) :=
    trimChars_eq_self (boldline_head v) (boldline_last v)
  rw [pmbGo]
  have c1 : ¬((trimStart ('*' :: '*' :: (v ++ ['*', '*']))).take 3 =
      [btChar, btChar, btChar]) := by
    rw [htr]
    intro hcon
    have h1 := congrArg List.head? hcon
    rw [show (('*' :: '*' :: (v ++ ['*', '*'])).take 3).head? = some '*' from rfl] at h1
    rw [show ([btChar, btChar, btChar] : List Char).head? = some btChar from rfl] at h1
    exact absurd (Option.some_inj.mp h1) (by decide)
  have c2 : ¬(isQuoteLine ('*' :: '*' :: (v ++ ['*', '*'])) = true) := by
    unfold isQuoteLine
    rw [htr]
    intro hcon
    rw [Bool.or_eq_true, decide_eq_true_iff, decide_eq_true_iff] at hcon
    rcases hcon with h | h
    · have h1 := congrArg List.head? h
      rw [show (('*' :: '*' :: (v ++ ['*', '*'])).take 2).head? = some '*' from rfl] at h1
      rw [show (['>', ' '] : List Char).head? = some '>' from rfl] at h1
      exact absurd (Option.some_inj.mp h1) (by decide)
    · have h1 := congrArg List.head? h
      rw [show ('*' :: '*' :: (v ++ ['*', '*'])).head? = some '*' from rfl] at h1
      rw [show (['>'] : List Char).head? = some '>' from rfl] at h1
      exact absurd (Option.some_inj.mp h1) (by decide)
  have c3 : ¬((trimStart ('*' :: '*' :: (v ++ ['*', '*']))).head? = some '#' ∧
      ((trimStart ('*' :: '*' :: (v ++ ['*', '*']))).takeWhile (fun c => c = '#')).length ≤ 6) := by
    rw [htr]
    rintro ⟨hcon, -⟩
    rw [show ('*' :: '*' :: (v ++ ['*', '*'])).head? = some '*' from rfl] at hcon
    exact absurd (Option.some_inj.mp hcon) (by decide)
  have c4 : ¬((trimStart ('*' :: '*' :: (v ++ ['*', '*']))).take 2 = ['-', ' '] ∨
      (trimStart ('*' :: '*' :: (v ++ ['*', '*']))).take 2 = ['*', ' ']) := by
    rw [htr]
    rintro (h | h)
    · have h1 := congrArg List.head? h
      rw [show (('*' :: '*' :: (v ++ ['*', '*'])).take 2).head? = some '*' from rfl] at h1
      rw [show (['-', ' '] : List Char).head? = some '-' from rfl] at h1
      exact absurd (Option.some_inj.mp h1) (by decide)
    · have h1 := congrArg (fun l => List.head? (List.drop 1 l)) h
      rw [show (fun l => List.head? (List.drop 1 l)) (('*' :: '*' :: (v ++ ['*', '*'])).take 2) =
        some '*' from rfl] at h1
      rw [show (fun l => List.head? (List.drop 1 l)) (['*', ' '] : List Char) =
        some ' ' from rfl] at h1
      exact absurd (Option.some_inj.mp h1) (by decide)
  have c5 : ¬(is_ordered_list_item (trimStart ('*' :: '*' :: (v ++ ['*', '*']))) = true) := by
    rw [htr]
    unfold is_ordered_list_item
    rw [show ('*' :: '*' :: (v ++ ['*', '*'])).takeWhile Char.isDigit = [] from rfl]
    simp
  have c6 : ¬(trimChars ('*' :: '*' :: (v ++ ['*', '*'])) = []) := by
    rw [htc]
    simp
  rw [if_neg c1, if_neg c2, if_neg c3, dif_neg c4, dif_neg c5, if_neg c6]
  rw [show pmbGo [] = [] from by rw [pmbGo], htc]
  unfold create_paragraph
  rw [boldline_inline hv hstar]
  rfl

/-- C7: exporting a document whose single block is one bold text node yields
exactly `**value**`, and that text is a fixed point of the import-then-export
round trip (for a non-empty value containing no `*` and no newline). -/
theorem c7_bold_roundtrip :
    ∀ v : List Char, v ≠ [] → '*' ∉ v → '\n' ∉ v →
      comment_text [boldPara v] = toChars "**" ++ v ++ toChars "**" ∧
      comment_text (contentOf (markdown_to_adf (comment_text [boldPara v]))) =
        comment_text [boldPara v] := by
  intro v hv hstar hnl
  have h1 : comment_text [boldPara v] = '*' :: '*' :: (v ++ ['*', '*']) := bold_to_text v
  have hblocks : parse_markdown_blocks ('*' :: '*' :: (v ++ ['*', '*'])) = [boldPara v] := by
    unfold parse_markdown_blocks
    rw [boldline_toLines hnl, boldline_pmb hv hstar]
  constructor
  · rw [h1]
    rfl
  · rw [h1]
    rw [show contentOf (markdown_to_adf ('*' :: '*' :: (v ++ ['*', '*']))) =
      parse_markdown_blocks ('*' :: '*' :: (v ++ ['*', '*'])) from rfl]
    rw [hblocks, h1]

/-- Witness instance for C7 at value `"ok"`. -/
theorem c7_bold_roundtrip_witness :
    comment_text [boldPara (toChars "ok")] = toChars "**ok**" ∧
    comment_text (contentOf (markdown_to_adf (toChars "**ok**"))) = toChars "**ok**" := by
  have h := c7_bold_roundtrip (toChars "ok") (by decide) (by decide) (by decide)
  have he : toChars "**" ++ toChars "ok" ++ toChars "**" = toChars "**ok**" := by decide
  obtain ⟨ha, hb⟩ := h
  rw [he] at ha
  rw [ha] at hb
  exact ⟨ha, hb⟩
